import Mathlib

/-!
Shallow embedding of the columnar database engine core (columns, aggregation,
distinct stream, MergeTree read pool) together with proofs about the embedded
operations.

Modelling conventions used throughout:
* machine integers are `Int`/`Nat` with explicit truncation where the C++
  computation wraps;
* floating-point values are modelled as `nan` or an exact rational value — the
  only operations performed on them here are comparisons and sign tests of a
  difference, for which IEEE arithmetic agrees with exact arithmetic;
* fallible code returns `Except`/`Option`;
* a C++ `std::vector` is modelled as a Lean `List` stored in REVERSED order
  (list head = vector back), so that `push_back` is `cons`, `back` is `head`
  and `pop_back` is `tail`; `std::reverse` is `List.reverse`.
-/

namespace DB

/-! ## Column model: CompareHelper and ColumnVector

From `dbms/include/DB/Columns/ColumnVector.h`.
-/

/-- Two's-complement reinterpretation of an integer modulo `2^bits`, i.e. the value
obtained when an out-of-range integer is converted to a signed `bits`-bit integer
(C++ implementation-defined conversion; all mainstream targets truncate). -/
def toSigned (bits : Nat) (x : Int) : Int :=
  let m := x % (2 ^ bits : Int)
  if m < 2 ^ (bits - 1) then m else m - 2 ^ bits

/-- `CompareHelper<T>::compare(a, b, nan_direction_hint) { return a - b; }` for an
integral type `T` of `w` bytes.  The operands of `-` undergo the usual arithmetic
conversions: for `w < 4` they are promoted to (32-bit) `int` and the subtraction is
exact; for `w = 4` or `w = 8` the subtraction wraps at the operand width and the
result is converted to the 32-bit `int` return type, which truncates.  Since
`(a - b) % 2^64 ≡ (a - b) [ZMOD 2^32]`, both wide cases reduce to a single 32-bit
truncation of the mathematical difference. -/
def CompareHelper.compare (w : Nat) (a b : Int) : Int :=
  if w < 4 then a - b else toSigned 32 (a - b)

/-- A floating-point value as far as comparisons are concerned: NaN or an exact
(rational) value.  IEEE subtraction of two distinct finite doubles never rounds to
zero and preserves the sign of the exact difference, so the sign tests below agree
with the C++ code on the modelled values. -/
inductive Float64V where
  | nan : Float64V
  | val : ℚ → Float64V
deriving DecidableEq

instance : Inhabited Float64V := ⟨.nan⟩

/-- `isnan`. -/
def Float64V.isnan : Float64V → Bool
  | .nan => true
  | .val _ => false

/-- `FloatCompareHelper<T>::less`: `if (isnan(b)) return !isnan(a); return a < b;`
(`a < b` is false when `a` is NaN). -/
def FloatCompareHelper.less : Float64V → Float64V → Bool
  | a, .nan => !a.isnan
  | .nan, .val _ => false
  | .val x, .val y => decide (x < y)

/-- `FloatCompareHelper<T>::greater`: `if (isnan(b)) return !isnan(a); return a > b;`. -/
def FloatCompareHelper.greater : Float64V → Float64V → Bool
  | a, .nan => !a.isnan
  | .nan, .val _ => false
  | .val x, .val y => decide (y < x)

/-- `FloatCompareHelper<T>::compare`: both NaN → 0; one NaN → `±nan_direction_hint`;
otherwise the sign of `a - b` computed as `(T(0) < (a - b)) - ((a - b) < T(0))`. -/
def FloatCompareHelper.compare (a b : Float64V) (nan_direction_hint : Int) : Int :=
  match a, b with
  | .nan, .nan => 0
  | .nan, .val _ => nan_direction_hint
  | .val _, .nan => -nan_direction_hint
  | .val x, .val y => (if (0 : ℚ) < x - y then 1 else 0) - (if x - y < 0 then 1 else 0)

/-- An integral `ColumnVector<T>`: the element width in bytes and the data. -/
structure ColumnVectorInt where
  width : Nat
  data : List Int
deriving DecidableEq

/-- `ColumnVectorBase<T>::compareAt(n, m, rhs, nan_direction_hint)` for an integral
column: `CompareHelper<T>::compare(data[n], rhs.data[m], nan_direction_hint)`.
Out-of-range access is undefined in the source; it is modelled by a default of 0. -/
def ColumnVectorInt.compareAt (c : ColumnVectorInt) (n m : Nat) (rhs : ColumnVectorInt)
    (nan_direction_hint : Int) : Int :=
  let _ := nan_direction_hint
  CompareHelper.compare c.width (c.data.getD n 0) (rhs.data.getD m 0)

/-- A floating-point `ColumnVector<T>`. -/
structure ColumnVectorFloat where
  data : List Float64V

/-- `ColumnVectorBase<T>::compareAt` for a float column. -/
def ColumnVectorFloat.compareAt (c : ColumnVectorFloat) (n m : Nat) (rhs : ColumnVectorFloat)
    (nan_direction_hint : Int) : Int :=
  FloatCompareHelper.compare (c.data.getD n .nan) (rhs.data.getD m .nan) nan_direction_hint

/-- Error codes raised by the column operations modelled here. -/
inductive ColumnError where
  | SIZES_OF_COLUMNS_DOESNT_MATCH
  | PARAMETER_OUT_OF_BOUND
deriving DecidableEq

/-- `ColumnVector<T>::filter(filt)`: throw if the filter size differs from the column
size, otherwise keep exactly the rows whose (UInt8) filter entry is nonzero, in
order. -/
def ColumnVector.filter (data : List α) (filt : List Nat) : Except ColumnError (List α) :=
  if data.length ≠ filt.length then .error .SIZES_OF_COLUMNS_DOESNT_MATCH
  else .ok (((data.zip filt).filter (fun p => p.2 ≠ 0)).map Prod.fst)

/-- The spec's description of `filter`: the subsequence of rows whose mask entry is
nonzero, in original order.  Stated from the spec's words, to be compared with
`ColumnVector.filter`. -/
def specFilter : List α → List Nat → List α
  | [], _ => []
  | _, [] => []
  | a :: d, b :: m => if b ≠ 0 then a :: specFilter d m else specFilter d m

/-- `ColumnVector<T>::permute(perm, limit)`: `limit = 0` means the whole column,
otherwise at most `limit` rows; throw if the permutation is shorter than required;
the result is `data[perm[i]]` for `i < limit`.  Out-of-range `perm[i]` is undefined
in the source and modelled by a default. -/
def ColumnVector.permute [Inhabited α] (data : List α) (perm : List Nat) (limit : Nat) :
    Except ColumnError (List α) :=
  let size := data.length
  let lim := if limit = 0 then size else min size limit
  if perm.length < lim then .error .SIZES_OF_COLUMNS_DOESNT_MATCH
  else .ok ((perm.take lim).map (fun k => data.getD k default))

/-- `ColumnVectorBase<T>::getPermutation(reverse, limit)`: indices `0 .. size-1`
sorted with the type's `less` comparator (`greater` when `reverse`).  `std::sort`
and `std::partial_sort` leave the chosen permutation unspecified beyond their
postcondition (for `partial_sort`, positions `≥ limit` are unspecified); they are
modelled by a deterministic full sort realizing those postconditions.  A `limit`
greater than the size is replaced by 0, i.e. a full sort (which the model performs
in every case). -/
def ColumnVectorBase.getPermutation [Inhabited α] (less greater : α → α → Bool)
    (data : List α) (rev : Bool) (limit : Nat) : List Nat :=
  let s := data.length
  let _ := if limit > s then 0 else limit
  let cmp : α → α → Bool := if rev then greater else less
  (List.range s).mergeSort (fun i j => ! cmp (data.getD j default) (data.getD i default))

/-! ## Aggregation method selection

From `Aggregator::chooseAggregationMethod` in `dbms/src/Interpreters/Aggregator.cpp`.
-/

/-- The aggregation data variants (`AggregatedDataVariants::Type`). -/
inductive AggMethod where
  | WITHOUT_KEY
  | KEY_64
  | KEYS_128
  | KEY_STRING
  | KEY_FIXED_STRING
  | HASHED
deriving DecidableEq

/-- The kind of a key column, as far as `chooseAggregationMethod` observes it through
`isFixed`, `isNumeric`, `sizeOfField` and the two `dynamic_cast`s.  `vec w` is
`ColumnVector<T>` with `sizeof(T) = w` (so also Date/DateTime); `str` is
`ColumnString`; `fixedStr n` is `ColumnFixedString(n)`; `other` stands for every
remaining kind (arrays, tuples, …), which is neither fixed nor numeric.  The flag
values for `str`, `fixedStr` and `other` are modelled from the spec's type-family
table, their classes not being part of the embedded sources. -/
inductive IColumnKind where
  | vec (width : Nat)
  | str
  | fixedStr (n : Nat)
  | other
deriving DecidableEq

/-- `IColumn::isFixed`. -/
def IColumnKind.isFixed : IColumnKind → Bool
  | .vec _ => true
  | .fixedStr _ => true
  | _ => false

/-- `IColumn::isNumeric`. -/
def IColumnKind.isNumeric : IColumnKind → Bool
  | .vec _ => true
  | _ => false

/-- `IColumn::sizeOfField` (only consulted on fixed columns). -/
def IColumnKind.sizeOfField : IColumnKind → Nat
  | .vec w => w
  | .fixedStr n => n
  | _ => 0

/-- `dynamic_cast<const ColumnString *>` succeeds. -/
def IColumnKind.isString : IColumnKind → Bool
  | .str => true
  | _ => false

/-- `dynamic_cast<const ColumnFixedString *>` succeeds. -/
def IColumnKind.isFixedString : IColumnKind → Bool
  | .fixedStr _ => true
  | _ => false

/-- The `keys_fit_128_bits` / `keys_bytes` loop: walk the key columns, breaking at the
first non-fixed one; returns (fit so far, bytes summed so far). -/
def fit128Loop : List IColumnKind → Bool × Nat
  | [] => (true, 0)
  | c :: rest =>
    if !c.isFixed then (false, 0)
    else
      let p := fit128Loop rest
      (p.1, c.sizeOfField + p.2)

/-- `Aggregator::chooseAggregationMethod(key_columns, key_sizes)` (the method part;
`key_sizes` is only filled in, not consulted, for the choice). -/
def chooseAggregationMethod (key_columns : List IColumnKind) : AggMethod :=
  let p := fit128Loop key_columns
  let keys_fit_128_bits := p.1 && !(p.2 > 16)
  let keys_size := key_columns.length
  if keys_size = 0 then .WITHOUT_KEY
  else if keys_size = 1 && (key_columns.headD .other).isNumeric then .KEY_64
  else if keys_fit_128_bits then .KEYS_128
  else if keys_size = 1 && (key_columns.headD .other).isString then .KEY_STRING
  else if keys_size = 1 && (key_columns.headD .other).isFixedString then .KEY_FIXED_STRING
  else .HASHED

/-- The spec's method-selection table, read top to bottom: WITHOUT_KEY when there are
no keys; KEY_64 for one fixed-width numeric key fitting in 64 bits; KEYS_128 when all
keys are fixed-width with total size at most 16 bytes; KEY_STRING for one
variable-length string key; KEY_FIXED_STRING for one fixed-length string key; HASHED
otherwise.  Stated from the spec's words, to be compared with the source's
`chooseAggregationMethod`. -/
def chooseAggregationMethodSpec (key_columns : List IColumnKind) : AggMethod :=
  if key_columns.length = 0 then .WITHOUT_KEY
  else if key_columns.length = 1 && (key_columns.headD .other).isFixed
       && (key_columns.headD .other).isNumeric
       && (key_columns.headD .other).sizeOfField ≤ 8 then .KEY_64
  else if key_columns.all IColumnKind.isFixed
       && (key_columns.map IColumnKind.sizeOfField).sum ≤ 16 then .KEYS_128
  else if key_columns.length = 1 && (key_columns.headD .other).isString then .KEY_STRING
  else if key_columns.length = 1 && (key_columns.headD .other).isFixedString then
    .KEY_FIXED_STRING
  else .HASHED

/-! ## Aggregator: per-row execution, overflow handling, two-phase merge

From `dbms/src/Interpreters/Aggregator.cpp`.  The hash table of one aggregation method
is modelled as an association list `List (K × List V)` (insertion order standing in
for the unspecified hash-iteration order — the claims compare groups as sets /
by lookup).  The state region of a group holds one state of type `V` per aggregate
function, at the function's offset; an aggregate function is its `create`, `add` and
`merge` operations on states.
-/

/-- An aggregate function: create an initial state, add one row, merge two states.
`ρ` is a whole input row; each function reads its own argument columns from it. -/
structure AggFn (V ρ : Type) where
  create : V
  add : V → ρ → V
  mergeSt : V → V → V

/-- The state region of a fresh group: each function's `create`d state at its offset. -/
def createdRegion (fns : List (AggFn V ρ)) : List V :=
  fns.map (fun fn => fn.create)

/-- Per-row update of a state region: for each function `j`,
`add(value + offsets[j], aggregate_columns[j], i)`. -/
def updRegion (fns : List (AggFn V ρ)) (vs : List V) (r : ρ) : List V :=
  List.zipWith (fun fn v => fn.add v r) fns vs

/-- Merge of two state regions: for each function `j`,
`dst[j] ← merge(dst[j], src[j])`. -/
def mergeRegion (fns : List (AggFn V ρ)) (dst src : List V) : List V :=
  List.zipWith (fun p s => p.1.mergeSt p.2 s) (fns.zip dst) src

/-- Update the (first) binding of `k` in an association list in place. -/
def alUpdate [DecidableEq K] (m : List (K × R)) (k : K) (f : R → R) : List (K × R) :=
  match m with
  | [] => []
  | e :: rest => if e.1 = k then (e.1, f e.2) :: rest else e :: alUpdate rest k f

/-- One row of `Aggregator::executeImpl`: emplace/find the key, initialize the state
region of a newly inserted key, and add the row's values — or, under `no_more_keys`,
drop the row / accumulate it in the overflow-row region `ovf` (`none` models a null
`overflow_row` pointer).  The constructors are assumed not to throw here; the
throwing path of `createAggregateStates` is modelled separately. -/
def executeImplRow [DecidableEq K] (fns : List (AggFn V ρ)) (no_more_keys : Bool)
    (st : List (K × List V)) (ovf : Option (List V)) (r : K × ρ) :
    List (K × List V) × Option (List V) :=
  if !no_more_keys then
    match st.lookup r.1 with
    | some _ => (alUpdate st r.1 (fun vs => updRegion fns vs r.2), ovf)
    | none => (st ++ [(r.1, updRegion fns (createdRegion fns) r.2)], ovf)
  else
    match st.lookup r.1 with
    | some _ => (alUpdate st r.1 (fun vs => updRegion fns vs r.2), ovf)
    | none =>
      match ovf with
      | none => (st, none)
      | some vs => (st, some (updRegion fns vs r.2))

/-- `Aggregator::executeImpl`: the per-row loop over a block. -/
def executeImpl [DecidableEq K] (fns : List (AggFn V ρ)) (no_more_keys : Bool)
    (rows : List (K × ρ)) (st : List (K × List V)) (ovf : Option (List V)) :
    List (K × List V) × Option (List V) :=
  rows.foldl (fun p r => executeImplRow fns no_more_keys p.1 p.2 r) (st, ovf)

/-- Plain aggregation of a stream of rows into an empty result (no group limit). -/
def aggregate [DecidableEq K] (fns : List (AggFn V ρ)) (rows : List (K × ρ)) :
    List (K × List V) :=
  (executeImpl fns false rows [] none).1

/-- `OverflowMode`. -/
inductive OverflowMode where
  | THROW
  | BREAK
  | ANY
deriving DecidableEq

/-- Error codes raised by the aggregator paths modelled here. -/
inductive AggError where
  | TOO_MUCH_ROWS
  | EMPTY_DATA_PASSED
deriving DecidableEq

/-- Result state of `executeOnBlock`: hash table, overflow-row region, `no_more_keys`
flag, and the returned bool (`false` = stop reading further blocks). -/
structure AggBlockResult (K V : Type) where
  st : List (K × List V)
  ovf : Option (List V)
  no_more_keys : Bool
  keep_going : Bool
deriving DecidableEq

/-- The keyed part of `Aggregator::executeOnBlock`: allocate the overflow row on first
use when `overflow_row` is set, run `executeImpl` over the block's rows, then check
the group limit: when (not yet in `no_more_keys` mode) the distinct-group count
exceeds a nonzero `max_rows_to_group_by`, THROW raises TOO_MUCH_ROWS, BREAK returns
false, ANY sets `no_more_keys`.  (`AggregatedDataVariants::size()` — the
distinct-group count — is the size of the hash table.) -/
def executeOnBlock [DecidableEq K] (fns : List (AggFn V ρ)) (max_rows_to_group_by : Nat)
    (group_by_overflow_mode : OverflowMode) (overflow_row : Bool)
    (block : List (K × ρ)) (st : List (K × List V)) (ovf : Option (List V))
    (no_more_keys : Bool) : Except AggError (AggBlockResult K V) :=
  let ovf1 := if overflow_row && ovf.isNone then some (createdRegion fns) else ovf
  let overflow_row_ptr := if overflow_row then ovf1 else none
  let p := executeImpl fns no_more_keys block st overflow_row_ptr
  let st' := p.1
  let ovf' := if overflow_row then p.2 else ovf1
  if no_more_keys = false ∧ max_rows_to_group_by ≠ 0 ∧
      st'.length > max_rows_to_group_by then
    match group_by_overflow_mode with
    | .THROW => .error .TOO_MUCH_ROWS
    | .BREAK => .ok ⟨st', ovf', no_more_keys, false⟩
    | .ANY => .ok ⟨st', ovf', true, true⟩
  else .ok ⟨st', ovf', no_more_keys, true⟩

/-- The read loop of `Aggregator::execute`: feed blocks to `executeOnBlock` until the
stream ends or `executeOnBlock` returns false; also returns the blocks left
unconsumed. -/
def aggExecute [DecidableEq K] (fns : List (AggFn V ρ)) (max_rows_to_group_by : Nat)
    (group_by_overflow_mode : OverflowMode) (overflow_row : Bool)
    (blocks : List (List (K × ρ))) (st : List (K × List V)) (ovf : Option (List V))
    (no_more_keys : Bool) :
    Except AggError (AggBlockResult K V × List (List (K × ρ))) :=
  match blocks with
  | [] => .ok (⟨st, ovf, no_more_keys, true⟩, [])
  | b :: rest =>
    match executeOnBlock fns max_rows_to_group_by group_by_overflow_mode overflow_row
        b st ovf no_more_keys with
    | .error e => .error e
    | .ok r =>
      if r.keep_going then
        aggExecute fns max_rows_to_group_by group_by_overflow_mode overflow_row
          rest r.st r.ovf r.no_more_keys
      else .ok (r, rest)

/-- `Aggregator::mergeDataImpl(method_dst, method_src)`: for every key of `src`,
emplace it into `dst`; when the key was already present, merge each function's state
`dst ← merge(dst, src)` and destroy the src state; when it is new, transfer the src
state pointer.  Returns the destination table and the list of src regions that were
destroyed. -/
def mergeDataImpl [DecidableEq K] (fns : List (AggFn V ρ))
    (dst src : List (K × List V)) : List (K × List V) × List (List V) :=
  src.foldl
    (fun p e =>
      match p.1.lookup e.1 with
      | some _ => (alUpdate p.1 e.1 (fun d => mergeRegion fns d e.2), p.2 ++ [e.2])
      | none => (p.1 ++ [e], p.2))
    (dst, [])

/-- `Aggregator::merge(ManyAggregatedDataVariants &)`: all results are folded into the
first one; empty sources are skipped, and an empty accumulator is replaced by the
current source.  (All sources here share one method/key type, so the
different-variants check cannot fire and the `without_key` merge is not involved.) -/
def mergeVariants [DecidableEq K] (fns : List (AggFn V ρ))
    (data_variants : List (List (K × List V))) : Except AggError (List (K × List V)) :=
  match data_variants with
  | [] => .error .EMPTY_DATA_PASSED
  | first :: rest =>
    .ok (rest.foldl
      (fun res cur =>
        if cur.isEmpty then res
        else if res.isEmpty then cur
        else (mergeDataImpl fns res cur).1)
      first)

/-- The state of one aggregate function after folding a list of rows into a fresh
state (`create` then `add` for each row). -/
def AggFn.fold (fn : AggFn V ρ) (rs : List ρ) : V :=
  rs.foldl fn.add fn.create

/-- The payloads of the rows of a stream carrying a given key, in stream order. -/
def rowsFor [DecidableEq K] (k : K) (rows : List (K × ρ)) : List ρ :=
  (rows.filter (fun r => r.1 = k)).map Prod.snd

/-- The state region a group reaches after folding a list of row payloads: each
function's folded state at its offset. -/
def regionFor (fns : List (AggFn V ρ)) (rs : List ρ) : List V :=
  fns.map (fun fn => fn.fold rs)

/-- Fold a list of row payloads into an existing state region. -/
def updAll (fns : List (AggFn V ρ)) (vs : List V) (rs : List ρ) : List V :=
  rs.foldl (fun acc r => updRegion fns acc r) vs

/-! ## createAggregateStates / destroyImpl (constructor rollback)

From `Aggregator::createAggregateStates` and `Aggregator::destroyImpl`.
-/

/-- Events observable on a group's aggregate-state region: construction or
destruction of function `j`'s state at its offset. -/
inductive StateEvent where
  | created (j : Nat)
  | destroyed (j : Nat)
deriving DecidableEq

/-- The loop of `createAggregateStates`, at absolute function index `j`, with the
states built so far (in reverse).  `none` in `ctors` models "this constructor
throws": the already-constructed states `0..j-1` are destroyed in order and the
pointer becomes null (the exception then propagates). -/
def createStatesLoop (built : List V) (j : Nat) :
    List (Option V) → Option (List V) × List StateEvent
  | [] => (some built.reverse, [])
  | none :: _ => (none, (List.range j).map .destroyed)
  | some v :: rest =>
    let p := createStatesLoop (v :: built) (j + 1) rest
    (p.1, .created j :: p.2)

/-- `Aggregator::createAggregateStates(aggregate_data)`: construct every function's
state in order at its offset; on a throw, roll back and null the pointer.  Returns
the final pointer value and the event trace. -/
def createAggregateStates (ctors : List (Option V)) : Option (List V) × List StateEvent :=
  createStatesLoop [] 0 ctors

/-- `Aggregator::destroyImpl`: walk the groups; a null state pointer (allocation
failed mid-insert) is skipped, otherwise each function's state is destroyed at its
offset.  Returns the destruction trace. -/
def destroyImpl (n_fns : Nat) (groups : List (Option (List V))) : List StateEvent :=
  groups.flatMap (fun g =>
    match g with
    | none => []
    | some _ => (List.range n_fns).map .destroyed)

/-! ## DistinctBlockInputStream

From `dbms/include/DB/DataStreams/DistinctBlockInputStream.h`.  A row's 128-bit
fingerprint is SipHash128 over the terminator-padded concatenation of the selected
columns' values (`getDataAtWithTerminatingZero`); the hash itself is kept abstract
(`fp : ρ → β`), so the theorems hold for every hash function.  The seen-set is the
insertion-ordered list of fingerprints (its size is its length).  The row/byte caps
(`max_rows_in_distinct` / `max_bytes_in_distinct`) are taken as disabled (0), as in
the scenario the claim describes; the byte cap depends on the hash table's allocated
buffer, which is outside this data model.
-/

/-- The per-row loop of `DistinctBlockInputStream::readImpl` over one block:
`filter[i] = set.insert(key).second`, breaking out once `set.size() == limit`
(`limit ≠ 0`); the filter entries of the remaining rows stay 0 (the vector is
value-initialized).  Returns the updated set and the filter. -/
def distinctLoop (fp : ρ → β) [DecidableEq β] (limit : Nat) (s : List β) :
    List ρ → List β × List Bool
  | [] => (s, [])
  | r :: rest =>
    let key := fp r
    let inserted := decide (key ∉ s)
    let s' := if key ∉ s then s ++ [key] else s
    if limit ≠ 0 ∧ s'.length = limit then (s', inserted :: rest.map (fun _ => false))
    else
      let p := distinctLoop fp limit s' rest
      (p.1, inserted :: p.2)

/-- Keep the rows whose filter entry is set (`IColumn::filter` applied to every
column of the block, lockstep). -/
def filterBlock (rows : List ρ) (flags : List Bool) : List ρ :=
  ((rows.zip flags).filter (fun p => p.2)).map Prod.fst

/-- `DistinctBlockInputStream::readImpl`, iterated over the whole input stream:
before each block, stop if `limit` distinct rows have accumulated; blocks
contributing no new row are skipped; otherwise the filtered block is emitted.
Returns the emitted blocks. -/
def distinctRead (fp : ρ → β) [DecidableEq β] (limit : Nat) :
    List (List ρ) → List β → List (List ρ)
  | [], _ => []
  | b :: rest, s =>
    if limit ≠ 0 ∧ s.length ≥ limit then []
    else
      let p := distinctLoop fp limit s b
      if p.1.length = s.length then distinctRead fp limit rest p.1
      else filterBlock b p.2 :: distinctRead fp limit rest p.1

/-- The spec's description of the output: the input rows, in input order, whose
fingerprint has not occurred in any earlier row (`seen` accumulates fingerprints).
Stated from the spec's words, to be compared with `distinctRead`. -/
def firstOccurrences (fp : ρ → β) [DecidableEq β] : List ρ → List β → List ρ
  | [], _ => []
  | r :: rest, seen =>
    if fp r ∈ seen then firstOccurrences fp rest seen
    else r :: firstOccurrences fp rest (seen ++ [fp r])

/-- Little-endian byte serialization of a `w`-byte unsigned integer
(`getDataAtWithTerminatingZero` of a numeric column: the raw value bytes). -/
def toBytesLE : Nat → Nat → List Nat
  | 0, _ => []
  | w + 1, x => x % 256 :: toBytesLE w (x / 256)

/-- A concrete stand-in 128-bit hash used to witness the DISTINCT theorems: an
injective-enough fold of the byte list (the claims hold for every hash; SipHash128
itself is outside the data model). -/
def hashS3 (l : List Nat) : Nat × Nat :=
  (l.foldl (fun a b => a * 257 + b + 1) 0, 0)

/-- The hashed bytes of one row of the DISTINCT scenario S3 (a UInt64 column `x` and
a string column `y`): `getDataAtWithTerminatingZero` of each selected column,
concatenated — the raw 8 bytes of `x`, then the bytes of `y` with its terminating
zero. -/
def serializeRowS3 (r : Nat × List Nat) : List Nat :=
  toBytesLE 8 r.1 ++ (r.2 ++ [0])

/-! ## MergeTreeReadPool

From `dbms/include/DB/Storages/MergeTree/MergeTreeReadPool.h`.  Reminder of the
vector convention: a `std::vector` is a Lean list in reversed order (head = back).
The ranges of a part arrive "listed right to left" (reversed by the select
executor), so in the model a part's range list reads left to right from the head;
likewise the range list stored in a thread-queue entry.  Part identity: the code
takes parts from the back of the shrinking `parts` vector and records
`part_idx = parts.size() - 1`, which in the model is the length of the tail.
-/

/-- A `[begin, end)` mark range (`end` is a Lean keyword, hence `lo`/`hi`). -/
structure MarkRange where
  lo : Nat
  hi : Nat
deriving DecidableEq, Repr

/-- Number of marks in a range. -/
def MarkRange.marks (r : MarkRange) : Nat := r.hi - r.lo

/-- `thread_task_t`: per-thread queue of (part index, its ranges) plus the parallel
vector of remaining mark counts. -/
structure ThreadTask where
  parts_and_ranges : List (Nat × List MarkRange)
  sum_marks_in_parts : List Nat
deriving DecidableEq, Repr

/-- The empty thread queue. -/
def ThreadTask.empty : ThreadTask := ⟨[], []⟩

/-- The pool state shared by `getTask` calls. -/
structure Pool where
  threads_tasks : List ThreadTask
  remaining_thread_tasks : List Nat
  do_not_steal_tasks : Bool
deriving DecidableEq, Repr

/-- The inner loop of `fillPerThreadInfo` over the ranges of one part
(`while (need_marks > 0)`): take `min(marks_in_range, need_marks)` from the back
range (the part's leftmost), recording the taken piece; an exhausted range is
popped; running out of ranges while marks are still needed throws LOGICAL_ERROR
(modelled as `none`).  `acc` accumulates the taken pieces via `emplace_back`
(= cons).  Returns (taken pieces, remaining ranges). -/
def fillRangesLoop (need : Nat) (ranges acc : List MarkRange) :
    Option (List MarkRange × List MarkRange) :=
  if h : need = 0 then some (acc, ranges)
  else
    match ranges with
    | [] => none
    | r :: rs =>
      let take := min r.marks need
      let acc' := MarkRange.mk r.lo (r.lo + take) :: acc
      let r' := MarkRange.mk (r.lo + take) r.hi
      if hz : take = 0 then fillRangesLoop need rs acc'
      else
        fillRangesLoop (need - take) (if r'.lo = r'.hi then rs else r' :: rs) acc'
termination_by (need, ranges.length)
decreasing_by
· apply Prod.Lex.right
  simp
· apply Prod.Lex.left
  omega

/-- The body of `fillPerThreadInfo`'s `while (need_marks > 0 && !parts.empty())` for
one thread: adjust `need_marks` by the "don't take too little" and "don't leave
fragments" rules against the back part; take the whole part (ranges kept listed
right to left) or bite `need_marks` marks off it, re-listing the taken pieces right
to left (the trailing `std::reverse`) so `getTask` can pop them.  Entries are pushed
on the thread's queue (push_back = cons).  Returns the thread's queue contents and
the remaining parts. -/
def fillThreadLoop (min_marks_for_concurrent_read need : Nat)
    (parts : List (List MarkRange × Nat)) (tt : ThreadTask) :
    Option (ThreadTask × List (List MarkRange × Nat)) :=
  match parts with
  | [] => some (tt, [])
  | (ranges, marks_in_part) :: rest =>
    if h : need = 0 then some (tt, parts)
    else
      let part_idx := rest.length
      let need1 :=
        if marks_in_part ≥ min_marks_for_concurrent_read ∧
            need < min_marks_for_concurrent_read
        then min_marks_for_concurrent_read else need
      let need2 :=
        if marks_in_part > need1 ∧ marks_in_part - need1 < min_marks_for_concurrent_read
        then marks_in_part else need1
      if marks_in_part ≤ need2 then
        let tt' : ThreadTask :=
          ⟨(part_idx, ranges) :: tt.parts_and_ranges,
            marks_in_part :: tt.sum_marks_in_parts⟩
        fillThreadLoop min_marks_for_concurrent_read (need2 - marks_in_part) rest tt'
      else
        match fillRangesLoop need2 ranges [] with
        | none => none
        | some (acc, ranges') =>
          let tt' : ThreadTask :=
            ⟨(part_idx, acc.reverse) :: tt.parts_and_ranges,
              need2 :: tt.sum_marks_in_parts⟩
          some (tt', (ranges', marks_in_part - need2) :: rest)
termination_by parts.length

/-- The outer loop of `fillPerThreadInfo` (`for i < threads && !parts.empty()`),
starting at thread `i`: each thread starts from `min_marks_per_thread` needed marks;
a thread is inserted into `remaining_thread_tasks` when an entry with a nonzero mark
count is pushed on its queue.  Returns the queues of threads `i..threads-1` and the
inserted thread indices. -/
def fillThreadsLoop (min_marks_for_concurrent_read min_marks_per_thread threads i : Nat)
    (parts : List (List MarkRange × Nat)) : Option (List ThreadTask × List Nat) :=
  if h : threads ≤ i then some ([], [])
  else if parts.isEmpty then
    some (List.replicate (threads - i) ThreadTask.empty, [])
  else
    match fillThreadLoop min_marks_for_concurrent_read min_marks_per_thread parts
        ThreadTask.empty with
    | none => none
    | some (tt, parts') =>
      match fillThreadsLoop min_marks_for_concurrent_read min_marks_per_thread threads
          (i + 1) parts' with
      | none => none
      | some (rest, rem) =>
        some (tt :: rest,
          (if tt.sum_marks_in_parts.any (fun m => m ≠ 0) then [i] else []) ++ rem)
termination_by threads - i

/-- `MergeTreeReadPool::fillPerThreadInfo(threads, sum_marks, per_part_sum_marks,
parts, min_marks_for_concurrent_read)`: distribute ≈ `ceil(sum_marks / threads)`
marks to each thread.  `parts` pairs each part's ranges with its mark count
(`per_part_sum_marks`), listed with the last part at the head. -/
def fillPerThreadInfo (threads sum_marks min_marks_for_concurrent_read : Nat)
    (parts : List (List MarkRange × Nat)) (do_not_steal_tasks : Bool) : Option Pool :=
  let min_marks_per_thread := (sum_marks - 1) / threads + 1
  match fillThreadsLoop min_marks_for_concurrent_read min_marks_per_thread threads 0
      parts with
  | none => none
  | some (tts, rem) => some ⟨tts, rem, do_not_steal_tasks⟩

/-- `fillPerPartInfo`'s mark counting: the sum of `range.end - range.begin` over a
part's ranges. -/
def sumMarks (ranges : List MarkRange) : Nat :=
  (ranges.map MarkRange.marks).sum

/-- The loop of `getTask` over the ranges of the queue entry's part
(`while (need_marks > 0 && !thread_task.ranges.empty())`): like `fillRangesLoop`,
but stops silently when the ranges run out.  Returns (taken pieces, remaining
ranges, marks still needed). -/
def getTaskRangesLoop (need : Nat) (ranges acc : List MarkRange) :
    List MarkRange × List MarkRange × Nat :=
  if h : need = 0 then (acc, ranges, 0)
  else
    match ranges with
    | [] => (acc, [], need)
    | r :: rs =>
      let take := min r.marks need
      let acc' := MarkRange.mk r.lo (r.lo + take) :: acc
      let r' := MarkRange.mk (r.lo + take) r.hi
      if hz : take = 0 then getTaskRangesLoop need rs acc'
      else
        getTaskRangesLoop (need - take) (if r'.lo = r'.hi then rs else r' :: rs) acc'
termination_by (need, ranges.length)
decreasing_by
· apply Prod.Lex.right
  simp
· apply Prod.Lex.left
  omega

/-- A scheduled read task, reduced to what the pool computes per call: the part index
and the mark ranges (the per-part column metadata is copied verbatim from
`fillPerPartInfo`).  `ranges` follows the vector convention (head = back); the
reader iterates them front to back, i.e. `ranges.reverse` in list order. -/
structure ReadTask where
  part_idx : Nat
  ranges : List MarkRange
deriving DecidableEq, Repr

/-- The amount of marks `getTask` takes from the back entry of the chosen queue:
`min(marks_in_part, min_marks_to_read)`, extended to the whole remainder when taking
less would leave fewer than `min_marks_to_read` marks in the part. -/
def needFormula (marks_in_part min_marks_to_read : Nat) : Nat :=
  let need0 := min marks_in_part min_marks_to_read
  if marks_in_part > need0 ∧ marks_in_part - need0 < min_marks_to_read
  then marks_in_part else need0

/-- The serving half of `getTask`, after the thread to serve from has been chosen:
pop or bite the back entry of that thread's queue. -/
def serveFromThread (pool : Pool) (min_marks_to_read thread_idx : Nat) :
    Option (ReadTask × Pool) :=
  let tt := pool.threads_tasks.getD thread_idx ThreadTask.empty
  match tt.parts_and_ranges, tt.sum_marks_in_parts with
  | (part_idx, ranges) :: pr_rest, marks_in_part :: sm_rest =>
    let need := needFormula marks_in_part min_marks_to_read
    if marks_in_part ≤ need then
      let tt' : ThreadTask := ⟨pr_rest, sm_rest⟩
      let rem' :=
        if sm_rest.isEmpty then pool.remaining_thread_tasks.erase thread_idx
        else pool.remaining_thread_tasks
      some (⟨part_idx, ranges.reverse⟩,
        ⟨pool.threads_tasks.set thread_idx tt', rem', pool.do_not_steal_tasks⟩)
    else
      let q := getTaskRangesLoop need ranges []
      let tt' : ThreadTask :=
        ⟨(part_idx, q.2.1) :: pr_rest,
          (marks_in_part - (need - q.2.2)) :: sm_rest⟩
      some (⟨part_idx, q.1⟩,
        ⟨pool.threads_tasks.set thread_idx tt', pool.remaining_thread_tasks,
          pool.do_not_steal_tasks⟩)
  | _, _ => none

/-- `MergeTreeReadPool::getTask(min_marks_to_read, thread)`: return `none` when no
thread has tasks, or when this thread has none and stealing is disabled; otherwise
serve from this thread's queue, or steal from some thread that still has tasks
(`*std::begin` of an `unordered_set` is an unspecified member; the model picks the
first stored).  From the back entry of the chosen queue take
`min(marks_in_part, min_marks_to_read)`, extended to the whole remainder when
leaving less than `min_marks_to_read` marks; a fully taken entry is popped (its
ranges re-reversed into reading order) and an emptied queue leaves
`remaining_thread_tasks`.  Accessing the back of an empty queue is undefined in the
source (it cannot happen under the pool invariant); modelled as `none`. -/
def getTask (pool : Pool) (min_marks_to_read thread : Nat) : Option (ReadTask × Pool) :=
  if pool.remaining_thread_tasks.isEmpty then none
  else
    let own := pool.threads_tasks.getD thread ThreadTask.empty
    let tasks_remaining_for_this_thread := !own.sum_marks_in_parts.isEmpty
    if !tasks_remaining_for_this_thread && pool.do_not_steal_tasks then none
    else
      let thread_idx :=
        if tasks_remaining_for_this_thread then thread
        else pool.remaining_thread_tasks.headD 0
      serveFromThread pool min_marks_to_read thread_idx

/-- Run a sequence of `(min_marks_to_read, thread)` requests against the pool,
collecting the tasks of the successful calls. -/
def runPool (pool : Pool) : List (Nat × Nat) → List ReadTask × Pool
  | [] => ([], pool)
  | (mm, t) :: reqs =>
    match getTask pool mm t with
    | none => runPool pool reqs
    | some (task, pool') =>
      let p := runPool pool' reqs
      (task :: p.1, p.2)

/-! ### Mark accounting and pool wellformedness (for the read-pool claims) -/

/-- The multiset of (part index, mark number) pairs covered by one range of a part. -/
def rangeMarks (pidx : Nat) (r : MarkRange) : Multiset (Nat × Nat) :=
  ((List.range r.marks).map (fun i => (pidx, r.lo + i)) : Multiset (Nat × Nat))

/-- The marks covered by a list of ranges of one part. -/
def rangesMarks (pidx : Nat) (rs : List MarkRange) : Multiset (Nat × Nat) :=
  (rs.map (rangeMarks pidx)).sum

/-- The marks held by one thread-queue entry. -/
def entryMarks (e : Nat × List MarkRange) : Multiset (Nat × Nat) :=
  rangesMarks e.1 e.2

/-- The marks held by one thread's queue. -/
def threadMarks (tt : ThreadTask) : Multiset (Nat × Nat) :=
  (tt.parts_and_ranges.map entryMarks).sum

/-- The marks still held by the pool. -/
def poolMarks (pool : Pool) : Multiset (Nat × Nat) :=
  (pool.threads_tasks.map threadMarks).sum

/-- The marks handed out by one task. -/
def taskMarks (t : ReadTask) : Multiset (Nat × Nat) :=
  rangesMarks t.part_idx t.ranges

/-- The marks handed out by a list of tasks. -/
def tasksMarks (ts : List ReadTask) : Multiset (Nat × Nat) :=
  (ts.map taskMarks).sum

/-- The marks of the not-yet-distributed parts list (head = last part; a part's
index is the length of the tail, as in the shrinking `parts` vector). -/
def partsMarks : List (List MarkRange × Nat) → Multiset (Nat × Nat)
  | [] => 0
  | p :: rest => rangesMarks rest.length p.1 + partsMarks rest

/-- The total recorded mark count of the parts list (`per_part_sum_marks`). -/
def partsTotal (parts : List (List MarkRange × Nat)) : Nat :=
  (parts.map Prod.snd).sum

/-- Wellformed range list of one queue entry / part: nonempty ranges listed left to
right (head = vector back). -/
def rangesWF (rs : List MarkRange) : Prop :=
  (∀ r ∈ rs, r.lo < r.hi) ∧ rs.Pairwise (fun a b => a.hi ≤ b.lo)

instance (rs : List MarkRange) : Decidable (rangesWF rs) := by
  unfold rangesWF
  infer_instance

/-- Wellformed queue entry: recorded marks match the ranges and are positive. -/
def entryWF (e : Nat × List MarkRange) (m : Nat) : Prop :=
  m = sumMarks e.2 ∧ rangesWF e.2 ∧ 0 < m

instance (e : Nat × List MarkRange) (m : Nat) : Decidable (entryWF e m) := by
  unfold entryWF
  infer_instance

/-- Wellformed thread queue: the two parallel vectors agree and every entry is
wellformed. -/
def threadWF (tt : ThreadTask) : Prop :=
  tt.parts_and_ranges.length = tt.sum_marks_in_parts.length ∧
    ∀ p ∈ tt.parts_and_ranges.zip tt.sum_marks_in_parts, entryWF p.1 p.2

instance (tt : ThreadTask) : Decidable (threadWF tt) := by
  unfold threadWF
  infer_instance

/-- The pool invariant maintained between `getTask` calls: wellformed queues, and
`remaining_thread_tasks` is exactly the set of threads whose queue is nonempty. -/
def poolWF (pool : Pool) : Prop :=
  (∀ tt ∈ pool.threads_tasks, threadWF tt) ∧
    pool.remaining_thread_tasks.Nodup ∧
    (∀ i ∈ pool.remaining_thread_tasks, i < pool.threads_tasks.length) ∧
    (∀ i < pool.threads_tasks.length,
      (i ∈ pool.remaining_thread_tasks ↔
        (pool.threads_tasks.getD i ThreadTask.empty).sum_marks_in_parts ≠ []))

instance (pool : Pool) : Decidable (poolWF pool) := by
  unfold poolWF
  infer_instance

/-- The adjusted mark demand of `fillPerThreadInfo` against the back part: raise a
too-small demand to `min_marks_for_concurrent_read` when the part is big enough
("don't take too little"), then extend to the whole part when taking less would
leave a fragment smaller than `min_marks_for_concurrent_read`. -/
def fillNeed (min_marks_for_concurrent_read marks_in_part need : Nat) : Nat :=
  let need1 :=
    if marks_in_part ≥ min_marks_for_concurrent_read ∧
        need < min_marks_for_concurrent_read
    then min_marks_for_concurrent_read else need
  if marks_in_part > need1 ∧ marks_in_part - need1 < min_marks_for_concurrent_read
  then marks_in_part else need1

/-- Wellformed input parts list for `fillPerThreadInfo`: every part has nonempty
ranges listed left to right and its recorded mark count (`per_part_sum_marks`)
matches and is positive. -/
def partsWF (parts : List (List MarkRange × Nat)) : Prop :=
  ∀ p ∈ parts, (∀ r ∈ p.1, r.lo < r.hi) ∧ p.1.Pairwise (fun a b => a.hi ≤ b.lo) ∧
    p.2 = sumMarks p.1 ∧ 0 < p.2

instance (parts : List (List MarkRange × Nat)) : Decidable (partsWF parts) := by
  unfold partsWF
  infer_instance

/-- The keyed-table size after `executeImpl` runs over a block (the distinct-group
count checked against `max_rows_to_group_by`). -/
def sizeAfterBlock [DecidableEq K] (fns : List (AggFn V ρ)) (block : List (K × ρ))
    (st : List (K × List V)) (ovf : Option (List V)) : Nat :=
  (executeImpl fns false block st ovf).1.length

/-! ## Theorems -/

/-! ### C4: compareAt sign (CompareHelper) -/

lemma specFilter_zip (data : List α) (mask : List Nat) :
    ((data.zip mask).filter (fun p => p.2 ≠ 0)).map Prod.fst = specFilter data mask := by
  induction data generalizing mask with
  | nil => simp [specFilter]
  | cons a d ih =>
    cases mask with
    | nil => simp [specFilter]
    | cons b m =>
      by_cases hb : b = 0 <;> simpa [specFilter, hb] using ih m

lemma specFilter_ones (data : List α) :
    specFilter data (List.replicate data.length 1) = data := by
  induction data with
  | nil => rfl
  | cons a d ih => simp [specFilter, ih]

lemma specFilter_zeros (data : List α) :
    specFilter data (List.replicate data.length 0) = [] := by
  induction data with
  | nil => rfl
  | cons a d ih => simp [specFilter, ih]

/-- C4 (code bug evaluation): on a `UInt32` column, `compareAt` violates the sign
contract stated in the comment above `CompareHelper::compare`: with element 0 at row
`i` and element `2^31 + 1` at row `j` (so element `i` < element `j`), the C++
computation `a - b` wraps to `2147483647 > 0`, where the claim (and the source's own
documentation) requires a negative result. -/
theorem C4_compareAt_sign_violation :
    (ColumnVectorInt.mk 4 [0]).compareAt 0 0 (ColumnVectorInt.mk 4 [2147483649]) 1
        = 2147483647 ∧
      (0 : Int) < 2147483649 ∧ ¬ ((2147483647 : Int) < 0) := by
  refine ⟨?_, by norm_num, by norm_num⟩
  simp [ColumnVectorInt.compareAt, CompareHelper.compare, toSigned]

/-- C5: `filter` keeps exactly the rows with a nonzero mask entry, in order (hence an
all-ones mask returns an equal column and an all-zeros mask an empty one), and it
raises the size-mismatch error if and only if the mask length differs from the
column size. -/
theorem C5_filter_correct (data : List α) (mask : List Nat) :
    (mask.length = data.length →
        ColumnVector.filter data mask = .ok (specFilter data mask)) ∧
      (ColumnVector.filter data mask = .error .SIZES_OF_COLUMNS_DOESNT_MATCH ↔
        mask.length ≠ data.length) ∧
      ColumnVector.filter data (List.replicate data.length 1) = .ok data ∧
      ColumnVector.filter data (List.replicate data.length 0) = .ok [] := by
  refine ⟨?_, ?_, ?_, ?_⟩
  · intro h
    unfold ColumnVector.filter
    rw [if_neg (by omega), specFilter_zip]
  · unfold ColumnVector.filter
    by_cases h : data.length = mask.length <;> simp [h] <;> omega
  · unfold ColumnVector.filter
    rw [if_neg (by simp), specFilter_zip, specFilter_ones]
  · unfold ColumnVector.filter
    rw [if_neg (by simp), specFilter_zip, specFilter_zeros]

/-- C5 witness: the theorem applied at a concrete column and mask. -/
theorem C5_filter_correct_witness :
    ColumnVector.filter [10, 20, 30] [1, 0, 2] = .ok (specFilter [10, 20, 30] [1, 0, 2]) ∧
      specFilter [10, 20, 30] [1, 0, 2] = [10, 30] :=
  ⟨(C5_filter_correct [10, 20, 30] [1, 0, 2]).1 rfl, by decide⟩

/-! ### C2: chooseAggregationMethod -/

lemma fit128Loop_fst (cols : List IColumnKind) :
    (fit128Loop cols).1 = cols.all IColumnKind.isFixed := by
  induction cols with
  | nil => rfl
  | cons c rest ih =>
    by_cases hc : c.isFixed <;> simp [fit128Loop, hc, ih]

lemma fit128Loop_snd (cols : List IColumnKind) (h : cols.all IColumnKind.isFixed = true) :
    (fit128Loop cols).2 = (cols.map IColumnKind.sizeOfField).sum := by
  induction cols with
  | nil => rfl
  | cons c rest ih =>
    simp only [List.all_cons, Bool.and_eq_true] at h
    simp [fit128Loop, h.1, ih h.2]

/-- C2: `chooseAggregationMethod` agrees with the spec's selection table (read top to
bottom) on every realizable key-column list — every numeric column of this codebase
is fixed-width of at most 8 bytes. -/
theorem C2_chooseAggregationMethod (key_columns : List IColumnKind)
    (hw : ∀ w, IColumnKind.vec w ∈ key_columns → w ≤ 8) :
    chooseAggregationMethod key_columns = chooseAggregationMethodSpec key_columns := by
  have hfit : ∀ cols : List IColumnKind,
      ((fit128Loop cols).1 && !((fit128Loop cols).2 > 16)) =
        (cols.all IColumnKind.isFixed &&
          decide ((cols.map IColumnKind.sizeOfField).sum ≤ 16)) := by
    intro cols
    by_cases h : cols.all IColumnKind.isFixed
    · rw [fit128Loop_fst, fit128Loop_snd cols h, h]
      simp [← decide_not, Nat.not_le]
    · rw [fit128Loop_fst]
      simp [h]
  match key_columns with
  | [] => rfl
  | [c] =>
    cases c with
    | vec w =>
      have hw8 : w ≤ 8 := hw w (by simp)
      simp [chooseAggregationMethod, chooseAggregationMethodSpec, fit128Loop,
        IColumnKind.isFixed, IColumnKind.isNumeric, IColumnKind.sizeOfField, hw8]
    | str =>
      simp [chooseAggregationMethod, chooseAggregationMethodSpec, fit128Loop,
        IColumnKind.isFixed, IColumnKind.isNumeric, IColumnKind.isString]
    | fixedStr n =>
      by_cases hn : n ≤ 16 <;>
        simp [chooseAggregationMethod, chooseAggregationMethodSpec, fit128Loop,
          IColumnKind.isFixed, IColumnKind.isNumeric, IColumnKind.isString,
          IColumnKind.isFixedString, IColumnKind.sizeOfField, hn] <;> omega
    | other =>
      simp [chooseAggregationMethod, chooseAggregationMethodSpec, fit128Loop,
        IColumnKind.isFixed, IColumnKind.isNumeric, IColumnKind.isString,
        IColumnKind.isFixedString]
  | c1 :: c2 :: rest =>
    have hne : (c1 :: c2 :: rest).length = 1 ↔ False := by simp
    simp only [chooseAggregationMethod, chooseAggregationMethodSpec]
    rw [hfit (c1 :: c2 :: rest)]
    simp

/-- C2 witness: the theorem applied at a concrete key-column list (one UInt32 key and
one UInt64 key: the packed-keys method). -/
theorem C2_chooseAggregationMethod_witness :
    chooseAggregationMethod [IColumnKind.vec 4, IColumnKind.vec 8] =
        chooseAggregationMethodSpec [IColumnKind.vec 4, IColumnKind.vec 8] ∧
      chooseAggregationMethod [IColumnKind.vec 4, IColumnKind.vec 8] = .KEYS_128 :=
  ⟨C2_chooseAggregationMethod _ (by
      intro w hwm
      rcases (by simpa using hwm) with h | h <;> omega),
    by decide⟩

/-! ### C7: getPermutation / permute -/

lemma map_getD_range [Inhabited α] (l : List α) :
    (List.range l.length).map (fun i => l.getD i default) = l := by
  apply List.ext_getElem
  · simp
  · intro i h1 h2
    simp only [List.getElem_map, List.getElem_range]
    rw [List.getD_eq_getElem]

lemma permute_zero [Inhabited α] (data : List α) (perm : List Nat)
    (h : data.length ≤ perm.length) :
    ColumnVector.permute data perm 0 =
      .ok ((perm.take data.length).map (fun k => data.getD k default)) := by
  simp only [ColumnVector.permute, eq_self_iff_true, if_true, ite_true]
  rw [if_neg (by omega)]

lemma permute_pos [Inhabited α] (data : List α) (perm : List Nat) (limit : Nat)
    (hl : limit ≠ 0) (h : min data.length limit ≤ perm.length) :
    ColumnVector.permute data perm limit =
      .ok ((perm.take (min data.length limit)).map (fun k => data.getD k default)) := by
  simp only [ColumnVector.permute, if_neg hl]
  rw [if_neg (by omega)]

/-- C7: `getPermutation` returns a permutation of `0..size-1`; applying it via
`permute` with limit 0 yields a column monotonic by the requested comparator (no
later element strictly precedes an earlier one); with `0 < limit ≤ size` the first
`limit` positions select and order `limit` elements that precede-or-tie every
remaining element.  The comparator (`less`, or `greater` when `reverse` is set) is
assumed to be a strict weak order, which the per-type comparators of the source
are. -/
theorem C7_getPermutation_sorts [Inhabited α] (less greater : α → α → Bool)
    (data : List α) (rev : Bool) (limit : Nat)
    (hasym : ∀ a b, (if rev then greater else less) a b = true →
      (if rev then greater else less) b a = false)
    (hnegtrans : ∀ a b c, (if rev then greater else less) b a = false →
      (if rev then greater else less) c b = false →
      (if rev then greater else less) c a = false) :
    letI cmp := if rev then greater else less
    letI p := ColumnVectorBase.getPermutation less greater data rev limit
    p.Perm (List.range data.length) ∧
      (∃ l, ColumnVector.permute data p 0 = .ok l ∧
        l.Pairwise (fun x y => cmp y x = false) ∧ l.Perm data) ∧
      (0 < limit → limit ≤ data.length →
        ∃ l rest, ColumnVector.permute data p limit = .ok l ∧ l.length = limit ∧
          l.Pairwise (fun x y => cmp y x = false) ∧ (l ++ rest).Perm data ∧
          ∀ x ∈ l, ∀ y ∈ rest, cmp y x = false) := by
  set cmp : α → α → Bool := if rev then greater else less with hcmp
  set p : List Nat := ColumnVectorBase.getPermutation less greater data rev limit with hp
  have hperm : p.Perm (List.range data.length) :=
    List.mergeSort_perm (List.range data.length) _
  have hplen : p.length = data.length := by
    simpa using hperm.length_eq
  set f : Nat → α := fun i => data.getD i default with hf
  have hsorted : p.Pairwise (fun i j => (! cmp (f j) (f i)) = true) := by
    apply List.sorted_mergeSort
    · intro a b c hab hbc
      simp only [Bool.not_eq_true', Bool.not_eq_eq_eq_not] at hab hbc ⊢
      exact hnegtrans _ _ _ hab hbc
    · intro a b
      rcases Bool.eq_false_or_eq_true (cmp (f b) (f a)) with h | h
      · simp [hasym _ _ h]
      · simp [h]
  have hsorted' : (p.map f).Pairwise (fun x y => cmp y x = false) := by
    rw [List.pairwise_map]
    exact hsorted.imp (by intro a b h; simpa using h)
  have hmapperm : (p.map f).Perm data := by
    have := hperm.map f
    rwa [show (List.range data.length).map f = data from map_getD_range data] at this
  refine ⟨hperm, ?_, ?_⟩
  · refine ⟨p.map f, ?_, hsorted', hmapperm⟩
    rw [permute_zero data p (by omega)]
    rw [List.take_of_length_le (by omega)]
  · intro hlpos hlle
    have hmin : min data.length limit = limit := by omega
    refine ⟨(p.map f).take limit, (p.map f).drop limit, ?_, ?_, ?_, ?_, ?_⟩
    · rw [permute_pos data p limit hlpos.ne' (by omega), hmin, ← List.map_take]
    · simp [hplen]; omega
    · exact hsorted'.sublist (List.take_sublist _ _)
    · rwa [List.take_append_drop]
    · have := (List.pairwise_append.mp
        (by rwa [List.take_append_drop] : ((p.map f).take limit ++ (p.map f).drop limit).Pairwise
          (fun x y => cmp y x = false))).2.2
      intro x hx y hy
      exact this x hx y hy

lemma float_less_asym (a b : Float64V) :
    FloatCompareHelper.less a b = true → FloatCompareHelper.less b a = false := by
  cases a <;> cases b <;>
    simp [FloatCompareHelper.less, Float64V.isnan] <;> intro h <;> linarith

lemma float_less_negtrans (a b c : Float64V) :
    FloatCompareHelper.less b a = false → FloatCompareHelper.less c b = false →
      FloatCompareHelper.less c a = false := by
  cases a <;> cases b <;> cases c <;>
    simp [FloatCompareHelper.less, Float64V.isnan] <;> intro h1 h2 <;> linarith

/-- C7 witness: the theorem applied to a concrete Float64 column containing a NaN
(ascending sort, no limit): the hypotheses hold for the float comparators, and the
claimed permutation/monotonicity properties are obtained. -/
theorem C7_getPermutation_sorts_witness :
    (ColumnVectorBase.getPermutation FloatCompareHelper.less FloatCompareHelper.greater
        [Float64V.val 2, Float64V.nan, Float64V.val 1] false 0).Perm (List.range 3) ∧
      (∃ l, ColumnVector.permute [Float64V.val 2, Float64V.nan, Float64V.val 1]
          (ColumnVectorBase.getPermutation FloatCompareHelper.less
            FloatCompareHelper.greater
            [Float64V.val 2, Float64V.nan, Float64V.val 1] false 0) 0 = .ok l ∧
        l.Pairwise (fun x y => FloatCompareHelper.less y x = false) ∧
        l.Perm [Float64V.val 2, Float64V.nan, Float64V.val 1]) := by
  have h := C7_getPermutation_sorts FloatCompareHelper.less FloatCompareHelper.greater
    [Float64V.val 2, Float64V.nan, Float64V.val 1] false 0
    (by intro a b; simpa using float_less_asym a b)
    (by intro a b c; simpa using float_less_negtrans a b c)
  exact ⟨h.1, h.2.1⟩

/-! ### C6: DistinctBlockInputStream -/

lemma filterBlock_cons (r : ρ) (rest : List ρ) (b : Bool) (flags : List Bool) :
    filterBlock (r :: rest) (b :: flags) =
      if b then r :: filterBlock rest flags else filterBlock rest flags := by
  by_cases hb : b <;> simp [filterBlock, hb]

lemma filterBlock_falses (rest : List ρ) :
    filterBlock rest (rest.map (fun _ => false)) = [] := by
  induction rest with
  | nil => rfl
  | cons a l ih => simpa [filterBlock_cons] using ih

lemma firstOccurrences_append {ρ β : Type} [DecidableEq β] (fp : ρ → β)
    (xs ys : List ρ) (seen : List β) :
    firstOccurrences fp (xs ++ ys) seen =
      firstOccurrences fp xs seen ++
        firstOccurrences fp ys (seen ++ (firstOccurrences fp xs seen).map fp) := by
  induction xs generalizing seen with
  | nil => simp [firstOccurrences]
  | cons r rest ih =>
    by_cases hmem : fp r ∈ seen <;>
      simp [firstOccurrences, List.elem_iff, hmem, ih, List.append_assoc]

lemma distinctLoop_cons_mem {ρ β : Type} [DecidableEq β] (fp : ρ → β) (limit : Nat)
    (s : List β) (r : ρ) (rest : List ρ) (hmem : fp r ∈ s)
    (hnb : ¬ (limit ≠ 0 ∧ s.length = limit)) :
    distinctLoop fp limit s (r :: rest) =
      ((distinctLoop fp limit s rest).1, false :: (distinctLoop fp limit s rest).2) := by
  simp only [distinctLoop]
  rw [if_neg (not_not_intro hmem), if_neg hnb]
  simp [hmem]

lemma distinctLoop_cons_new {ρ β : Type} [DecidableEq β] (fp : ρ → β) (limit : Nat)
    (s : List β) (r : ρ) (rest : List ρ) (hmem : fp r ∉ s)
    (hnb : ¬ (limit ≠ 0 ∧ s.length + 1 = limit)) :
    distinctLoop fp limit s (r :: rest) =
      ((distinctLoop fp limit (s ++ [fp r]) rest).1,
        true :: (distinctLoop fp limit (s ++ [fp r]) rest).2) := by
  simp only [distinctLoop]
  rw [if_pos hmem, if_neg (by simpa using hnb)]
  simp [hmem]

lemma distinctLoop_cons_new_break {ρ β : Type} [DecidableEq β] (fp : ρ → β) (limit : Nat)
    (s : List β) (r : ρ) (rest : List ρ) (hmem : fp r ∉ s)
    (hb : limit ≠ 0 ∧ s.length + 1 = limit) :
    distinctLoop fp limit s (r :: rest) =
      (s ++ [fp r], true :: rest.map (fun _ => false)) := by
  simp only [distinctLoop]
  rw [if_pos hmem, if_pos (by simpa using hb)]
  simp [hmem]

lemma distinctLoop_spec_zero {ρ β : Type} [DecidableEq β] (fp : ρ → β) :
    ∀ (rows : List ρ) (s : List β),
      (distinctLoop fp 0 s rows).1 = s ++ (firstOccurrences fp rows s).map fp ∧
        filterBlock rows (distinctLoop fp 0 s rows).2 = firstOccurrences fp rows s := by
  intro rows
  induction rows with
  | nil => intro s; simp [distinctLoop, firstOccurrences, filterBlock]
  | cons r rest ih =>
    intro s
    by_cases hmem : fp r ∈ s
    · rw [distinctLoop_cons_mem fp 0 s r rest hmem (by simp)]
      have hfo : firstOccurrences fp (r :: rest) s = firstOccurrences fp rest s := by
        simp [firstOccurrences, List.elem_iff, hmem]
      rw [hfo, filterBlock_cons, if_neg (show ¬ (false = true) by simp)]
      exact ih s
    · rw [distinctLoop_cons_new fp 0 s r rest hmem (by simp)]
      have hfo : firstOccurrences fp (r :: rest) s =
          r :: firstOccurrences fp rest (s ++ [fp r]) := by
        simp [firstOccurrences, List.elem_iff, hmem]
      rw [hfo, filterBlock_cons, if_pos rfl]
      refine ⟨?_, ?_⟩
      · rw [(ih (s ++ [fp r])).1]; simp
      · rw [(ih (s ++ [fp r])).2]

lemma distinctLoop_spec_pos {ρ β : Type} [DecidableEq β] (fp : ρ → β) (limit : Nat)
    (hl : limit ≠ 0) :
    ∀ (rows : List ρ) (s : List β), s.length < limit →
      (distinctLoop fp limit s rows).1 =
          s ++ ((firstOccurrences fp rows s).take (limit - s.length)).map fp ∧
        filterBlock rows (distinctLoop fp limit s rows).2 =
          (firstOccurrences fp rows s).take (limit - s.length) := by
  intro rows
  induction rows with
  | nil => intro s hs; simp [distinctLoop, firstOccurrences, filterBlock]
  | cons r rest ih =>
    intro s hs
    by_cases hmem : fp r ∈ s
    · rw [distinctLoop_cons_mem fp limit s r rest hmem (by intro h; omega)]
      have hfo : firstOccurrences fp (r :: rest) s = firstOccurrences fp rest s := by
        simp [firstOccurrences, List.elem_iff, hmem]
      rw [hfo, filterBlock_cons, if_neg (show ¬ (false = true) by simp)]
      exact ih s hs
    · have hfo : firstOccurrences fp (r :: rest) s =
          r :: firstOccurrences fp rest (s ++ [fp r]) := by
        simp [firstOccurrences, List.elem_iff, hmem]
      by_cases hb : s.length + 1 = limit
      · -- the break fires: exactly `limit` distinct rows now
        rw [distinctLoop_cons_new_break fp limit s r rest hmem ⟨hl, hb⟩]
        have h1 : limit - s.length = 1 := by omega
        rw [hfo, filterBlock_cons, if_pos rfl, filterBlock_falses, h1,
          List.take_succ_cons, List.take_zero]
        simp
      · -- no break: continue with the grown set
        rw [distinctLoop_cons_new fp limit s r rest hmem (by intro h; exact hb h.2)]
        have hs' : (s ++ [fp r]).length < limit := by simp; omega
        have hrec := ih (s ++ [fp r]) hs'
        have hone : limit - s.length = (limit - (s.length + 1)) + 1 := by omega
        rw [hfo, filterBlock_cons, if_pos rfl, hone, List.take_succ_cons]
        refine ⟨?_, ?_⟩
        · rw [hrec.1]
          simp [List.append_assoc]
        · rw [hrec.2]
          simp

lemma distinctRead_spec_zero {ρ β : Type} [DecidableEq β] (fp : ρ → β) :
    ∀ (blocks : List (List ρ)) (s : List β),
      (distinctRead fp 0 blocks s).flatten = firstOccurrences fp blocks.flatten s := by
  intro blocks
  induction blocks with
  | nil => intro s; simp [distinctRead, firstOccurrences]
  | cons b rest ih =>
    intro s
    simp only [distinctRead]
    rw [if_neg (by simp)]
    have hz := distinctLoop_spec_zero fp b s
    have happ : firstOccurrences fp ((b :: rest).flatten) s =
        firstOccurrences fp b s ++
          firstOccurrences fp rest.flatten (s ++ (firstOccurrences fp b s).map fp) := by
      rw [List.flatten_cons, firstOccurrences_append]
    by_cases hlen : (distinctLoop fp 0 s b).1.length = s.length
    · rw [if_pos hlen]
      have hfo : firstOccurrences fp b s = [] := by
        have hl := congrArg List.length hz.1
        rw [hlen] at hl
        simpa using hl
      rw [ih, hz.1, happ, hfo]
      simp
    · rw [if_neg hlen]
      rw [List.flatten_cons, hz.2, ih, hz.1, happ]

lemma distinctRead_spec_pos {ρ β : Type} [DecidableEq β] (fp : ρ → β) (limit : Nat)
    (hl : limit ≠ 0) :
    ∀ (blocks : List (List ρ)) (s : List β), s.length ≤ limit →
      (distinctRead fp limit blocks s).flatten =
        (firstOccurrences fp blocks.flatten s).take (limit - s.length) := by
  intro blocks
  induction blocks with
  | nil => intro s hs; simp [distinctRead, firstOccurrences]
  | cons b rest ih =>
    intro s hs
    by_cases hfull : s.length ≥ limit
    · have hnil : distinctRead fp limit (b :: rest) s = [] := by
        simp only [distinctRead]
        rw [if_pos ⟨hl, hfull⟩]
      have hk0 : limit - s.length = 0 := by omega
      rw [hnil]
      simp [hk0]
    · have hslt : s.length < limit := by omega
      have hz := distinctLoop_spec_pos fp limit hl b s hslt
      have happ : firstOccurrences fp ((b :: rest).flatten) s =
          firstOccurrences fp b s ++
            firstOccurrences fp rest.flatten (s ++ (firstOccurrences fp b s).map fp) := by
        rw [List.flatten_cons, firstOccurrences_append]
      set FOb := firstOccurrences fp b s with hFOb
      set k := limit - s.length with hk
      have hflat : (distinctRead fp limit (b :: rest) s).flatten =
          FOb.take k ++ (distinctRead fp limit rest (distinctLoop fp limit s b).1).flatten := by
        simp only [distinctRead]
        rw [if_neg (by intro h; exact hfull h.2)]
        by_cases hlen : (distinctLoop fp limit s b).1.length = s.length
        · rw [if_pos hlen]
          have hfo : FOb.take k = [] := by
            have hl2 := congrArg List.length hz.1
            rw [hlen] at hl2
            simp at hl2
            rcases hl2 with h | h <;> simp [h]
          rw [hfo]
          simp
        · rw [if_neg hlen, List.flatten_cons, hz.2]
      rw [hflat]
      by_cases hcase : FOb.length ≤ k
      · -- the whole block's new rows fit under the limit
        have htake : FOb.take k = FOb := List.take_of_length_le hcase
        have hset : (distinctLoop fp limit s b).1 = s ++ FOb.map fp := by
          rw [hz.1, htake]
        have hlen' : (s ++ FOb.map fp).length ≤ limit := by
          simp
          omega
        have harg : limit - (s ++ FOb.map fp).length = k - FOb.length := by
          simp only [List.length_append, List.length_map]
          omega
        rw [hset, ih (s ++ FOb.map fp) hlen', happ, List.take_append_eq_append_take,
          harg]
      · -- the block overruns the limit: the set reaches `limit`, later blocks add nothing
        push_neg at hcase
        have hset : (distinctLoop fp limit s b).1 = s ++ (FOb.take k).map fp := hz.1
        have hlen2 : (distinctLoop fp limit s b).1.length = limit := by
          rw [hset]
          simp
          omega
        have hrest : (distinctRead fp limit rest (distinctLoop fp limit s b).1).flatten = [] := by
          rw [ih _ (by omega), hlen2]
          simp
        rw [hrest, happ, List.take_append_of_le_length (by omega)]
        simp

/-- C6: the concatenation of the blocks emitted by `DistinctBlockInputStream` is
exactly the input rows, in input order, whose fingerprint has not occurred in any
earlier row, truncated to `limit` rows when a nonzero limit is set; and on the
scenario-S3 input `x = [1,1,2,2,3]`, `y = ["p","p","p","q","q"]` with DISTINCT over
both columns, for any 128-bit hash separating the four distinct serialized rows the
output is `[(1,"p"), (2,"p"), (2,"q"), (3,"q")]` (strings as their byte lists). -/
theorem C6_distinct_first_occurrences {ρ β : Type} [DecidableEq β] (fp : ρ → β)
    (limit : Nat) (blocks : List (List ρ)) :
    ((distinctRead fp limit blocks []).flatten =
        if limit = 0 then firstOccurrences fp blocks.flatten []
        else (firstOccurrences fp blocks.flatten []).take limit) ∧
      (∀ hash : List Nat → Nat × Nat,
        hash (serializeRowS3 (1, [112])) ≠ hash (serializeRowS3 (2, [112])) →
        hash (serializeRowS3 (1, [112])) ≠ hash (serializeRowS3 (2, [113])) →
        hash (serializeRowS3 (1, [112])) ≠ hash (serializeRowS3 (3, [113])) →
        hash (serializeRowS3 (2, [112])) ≠ hash (serializeRowS3 (2, [113])) →
        hash (serializeRowS3 (2, [112])) ≠ hash (serializeRowS3 (3, [113])) →
        hash (serializeRowS3 (2, [113])) ≠ hash (serializeRowS3 (3, [113])) →
        distinctRead (fun r => hash (serializeRowS3 r)) 0
            [[(1, [112]), (1, [112]), (2, [112]), (2, [113]), (3, [113])]] [] =
          [[(1, [112]), (2, [112]), (2, [113]), (3, [113])]]) := by
  constructor
  · by_cases h0 : limit = 0
    · subst h0
      rw [if_pos rfl]
      exact distinctRead_spec_zero fp blocks []
    · rw [if_neg h0]
      simpa using distinctRead_spec_pos fp limit h0 blocks [] (by simp)
  · intro hash h12 h13 h14 h23 h24 h34
    set f : Nat × List Nat → Nat × Nat := fun r => hash (serializeRowS3 r) with hf
    have hfo : firstOccurrences f
        [(1, [112]), (1, [112]), (2, [112]), (2, [113]), (3, [113])] [] =
        [(1, [112]), (2, [112]), (2, [113]), (3, [113])] := by
      simp [firstOccurrences, List.elem_iff, beq_iff_eq, hf, h12, h13, h14, h23, h24,
        h34, Ne.symm h12, Ne.symm h13, Ne.symm h14, Ne.symm h23, Ne.symm h24,
        Ne.symm h34]
    have hloop := distinctLoop_spec_zero f
      [(1, [112]), (1, [112]), (2, [112]), (2, [113]), (3, [113])] []
    rw [hfo] at hloop
    simp only [distinctRead]
    rw [if_neg (by simp)]
    rw [if_neg (by rw [hloop.1]; simp)]
    rw [hloop.2]

set_option maxHeartbeats 1000000 in
/-- C6 witness: the theorem applied at a concrete stream, limit and injective hash. -/
theorem C6_distinct_first_occurrences_witness :
    ((distinctRead (fun r : Nat × List Nat => hashS3 (serializeRowS3 r)) 2
        [[(5, [112]), (5, [112]), (6, [112]), (7, [113])]] []).flatten =
      (firstOccurrences (fun r : Nat × List Nat => hashS3 (serializeRowS3 r))
        [(5, [112]), (5, [112]), (6, [112]), (7, [113])] []).take 2) ∧
      distinctRead (fun r : Nat × List Nat => hashS3 (serializeRowS3 r)) 0
          [[(1, [112]), (1, [112]), (2, [112]), (2, [113]), (3, [113])]] [] =
        [[(1, [112]), (2, [112]), (2, [113]), (3, [113])]] := by
  have h := C6_distinct_first_occurrences
    (fun r : Nat × List Nat => hashS3 (serializeRowS3 r)) 2
    [[(5, [112]), (5, [112]), (6, [112]), (7, [113])]]
  have h1 := h.1
  rw [if_neg (by norm_num)] at h1
  exact ⟨h1, h.2 hashS3 (by decide) (by decide) (by decide) (by decide)
    (by decide) (by decide)⟩

/-! ### C9: createAggregateStates rollback / destroyImpl null skip -/

lemma createStatesLoop_all_some {V : Type} (pre : List V) :
    ∀ (built : List V) (j0 : Nat),
      createStatesLoop built j0 (pre.map some) =
        (some (built.reverse ++ pre), (List.range' j0 pre.length).map .created) := by
  induction pre with
  | nil => intro built j0; simp [createStatesLoop]
  | cons v rest ih =>
    intro built j0
    simp [createStatesLoop, ih (v :: built) (j0 + 1), List.range'_succ]

lemma createStatesLoop_first_fail {V : Type} (pre : List V) (rest : List (Option V)) :
    ∀ (built : List V) (j0 : Nat),
      createStatesLoop built j0 (pre.map some ++ none :: rest) =
        (none, (List.range' j0 pre.length).map .created ++
          (List.range (j0 + pre.length)).map .destroyed) := by
  induction pre with
  | nil => intro built j0; simp [createStatesLoop]
  | cons v pr ih =>
    intro built j0
    have harith : j0 + (pr.length + 1) = j0 + 1 + pr.length := by omega
    simp [createStatesLoop, ih (v :: built) (j0 + 1), List.range'_succ, harith]

/-- C9: when the constructors of functions `0..j-1` succeed and the constructor of
function `j` throws, `createAggregateStates` destroys the already-constructed states
`0..j-1` of that region, leaves the group's state pointer null, and the exception
propagates; when all constructors succeed the states are created in order at their
offsets; and `destroyImpl` skips a null state pointer (destroying nothing for that
group), while destroying every function's state of a non-null one. -/
theorem C9_createAggregateStates_rollback {V : Type} (pre : List V)
    (rest : List (Option V)) (n_fns : Nat) (region : List V) :
    createAggregateStates (pre.map some ++ none :: rest) =
        (none, (List.range pre.length).map .created ++
          (List.range pre.length).map .destroyed) ∧
      createAggregateStates (pre.map some) =
        (some pre, (List.range pre.length).map .created) ∧
      destroyImpl (V := V) n_fns [none] = [] ∧
      destroyImpl n_fns [some region] = (List.range n_fns).map .destroyed := by
  refine ⟨?_, ?_, ?_, ?_⟩
  · rw [createAggregateStates, createStatesLoop_first_fail pre rest [] 0,
      ← List.range_eq_range']
    simp
  · rw [createAggregateStates, createStatesLoop_all_some pre [] 0,
      ← List.range_eq_range']
    simp
  · simp [destroyImpl]
  · simp [destroyImpl]

/-! ### C3: GROUP BY overflow semantics -/

lemma alUpdate_keys [DecidableEq K] (m : List (K × R)) (k : K) (f : R → R) :
    (alUpdate m k f).map Prod.fst = m.map Prod.fst := by
  induction m with
  | nil => rfl
  | cons e rest ih =>
    by_cases he : e.1 = k <;> simp [alUpdate, he, ih]

lemma lookup_alUpdate_self [DecidableEq K] (m : List (K × R)) (k : K) (f : R → R)
    (vs : R) (h : m.lookup k = some vs) : (alUpdate m k f).lookup k = some (f vs) := by
  induction m with
  | nil => simp [List.lookup] at h
  | cons e rest ih =>
    by_cases he : k = e.1
    · subst he
      simp [List.lookup] at h
      simp [alUpdate, List.lookup, h]
    · have hne : (k == e.1) = false := by simp [he]
      have hne' : ¬ (e.1 = k) := fun hc => he hc.symm
      simp [List.lookup, hne] at h
      simp only [alUpdate, if_neg hne', List.lookup, hne]
      exact ih h

/-- C3: when (not yet in `no_more_keys` mode) the distinct-group count after a block
exceeds a nonzero `max_rows_to_group_by`: THROW raises TOO_MUCH_ROWS; BREAK makes
`executeOnBlock` return false so the read loop consumes no further blocks; ANY sets
`no_more_keys`.  Once `no_more_keys` is set, a row never inserts a new key: a
present key's group is updated in place, an unseen key's row is dropped when the
overflow-row pointer is null and accumulated into the overflow region otherwise. -/
theorem C3_group_by_overflow [DecidableEq K] (fns : List (AggFn V ρ))
    (max_rows_to_group_by : Nat) (overflow_row : Bool) (block : List (K × ρ))
    (st : List (K × List V)) (ovf : Option (List V))
    (hcap : max_rows_to_group_by ≠ 0)
    (hover : let ovf1 := if overflow_row && ovf.isNone then some (createdRegion fns) else ovf
      sizeAfterBlock fns block st (if overflow_row then ovf1 else none) >
        max_rows_to_group_by) :
    (executeOnBlock fns max_rows_to_group_by .THROW overflow_row block st ovf false =
        .error .TOO_MUCH_ROWS) ∧
      ((executeOnBlock fns max_rows_to_group_by .BREAK overflow_row block st ovf
          false).map AggBlockResult.keep_going = .ok false) ∧
      (∀ rest : List (List (K × ρ)),
        ∃ r, aggExecute fns max_rows_to_group_by .BREAK overflow_row (block :: rest)
            st ovf false = .ok (r, rest)) ∧
      ((executeOnBlock fns max_rows_to_group_by .ANY overflow_row block st ovf
          false).map AggBlockResult.no_more_keys = .ok true) ∧
      (∀ (st' : List (K × List V)) (ovf' : Option (List V)) (r : K × ρ),
        ((executeImplRow fns true st' ovf' r).1.map Prod.fst = st'.map Prod.fst) ∧
          (st'.lookup r.1 = none →
            (executeImplRow fns true st' ovf' r).1 = st' ∧
              (executeImplRow fns true st' ovf' r).2 =
                Option.map (fun vs => updRegion fns vs r.2) ovf') ∧
          (∀ vs, st'.lookup r.1 = some vs →
            (executeImplRow fns true st' ovf' r).1.lookup r.1 =
                some (updRegion fns vs r.2) ∧
              (executeImplRow fns true st' ovf' r).2 = ovf')) := by
  simp only [sizeAfterBlock] at hover
  have hmain : ∀ mode : OverflowMode,
      executeOnBlock fns max_rows_to_group_by mode overflow_row block st ovf false =
        (match mode with
          | .THROW => .error .TOO_MUCH_ROWS
          | .BREAK => .ok ⟨(executeImpl fns false block st
              (if overflow_row then
                (if overflow_row && ovf.isNone then some (createdRegion fns) else ovf)
               else none)).1,
              (if overflow_row then (executeImpl fns false block st
                (if overflow_row then
                  (if overflow_row && ovf.isNone then some (createdRegion fns) else ovf)
                 else none)).2
               else (if overflow_row && ovf.isNone then some (createdRegion fns)
                 else ovf)), false, false⟩
          | .ANY => .ok ⟨(executeImpl fns false block st
              (if overflow_row then
                (if overflow_row && ovf.isNone then some (createdRegion fns) else ovf)
               else none)).1,
              (if overflow_row then (executeImpl fns false block st
                (if overflow_row then
                  (if overflow_row && ovf.isNone then some (createdRegion fns) else ovf)
                 else none)).2
               else (if overflow_row && ovf.isNone then some (createdRegion fns)
                 else ovf)), true, true⟩) := by
    intro mode
    simp only [executeOnBlock]
    rw [if_pos (show True ∧ max_rows_to_group_by ≠ 0 ∧
      (executeImpl fns false block st
        (if overflow_row then
          (if overflow_row && ovf.isNone then some (createdRegion fns) else ovf)
         else none)).1.length > max_rows_to_group_by from ⟨trivial, hcap, hover⟩)]
  refine ⟨?_, ?_, ?_, ?_, ?_⟩
  · rw [hmain .THROW]
  · rw [hmain .BREAK]
    rfl
  · intro rest
    exact ⟨_, by simp only [aggExecute]; rw [hmain .BREAK]; rfl⟩
  · rw [hmain .ANY]
    rfl
  · intro st' ovf' r
    refine ⟨?_, ?_, ?_⟩
    · cases hl : st'.lookup r.1 with
      | some vs => simp [executeImplRow, hl, alUpdate_keys]
      | none => cases ovf' <;> simp [executeImplRow, hl]
    · intro hl
      cases ovf' <;> simp [executeImplRow, hl]
    · intro vs hl
      simp [executeImplRow, hl, lookup_alUpdate_self st' r.1 _ vs hl]

/-- C3 witness: one counting aggregate over keys 1 and 2 with `max_rows_to_group_by
= 1`; the group count 2 exceeds the cap, and the three modes behave as claimed. -/
theorem C3_group_by_overflow_witness :
    (executeOnBlock [(⟨0, fun v _ => v + 1, (· + ·)⟩ : AggFn Nat Unit)] 1 .THROW false
        [(1, ()), (2, ())] [] none false = .error .TOO_MUCH_ROWS) ∧
      ((executeOnBlock [(⟨0, fun v _ => v + 1, (· + ·)⟩ : AggFn Nat Unit)] 1 .BREAK
          false [(1, ()), (2, ())] [] none false).map AggBlockResult.keep_going =
        .ok false) ∧
      ((executeOnBlock [(⟨0, fun v _ => v + 1, (· + ·)⟩ : AggFn Nat Unit)] 1 .ANY
          false [(1, ()), (2, ())] [] none false).map AggBlockResult.no_more_keys =
        .ok true) := by
  have h := C3_group_by_overflow [(⟨0, fun v _ => v + 1, (· + ·)⟩ : AggFn Nat Unit)]
    1 false [(1, ()), (2, ())] [] none (by decide)
    (by decide)
  exact ⟨h.1, h.2.1, h.2.2.2.1⟩

/-! ### C1: two-phase aggregation equivalence -/

lemma fold_append (fn : AggFn V ρ) (xs : List ρ) (r : ρ) :
    fn.fold (xs ++ [r]) = fn.add (fn.fold xs) r := by
  simp [AggFn.fold]

lemma updRegion_regionFor (fns : List (AggFn V ρ)) (xs : List ρ) (r : ρ) :
    updRegion fns (regionFor fns xs) r = regionFor fns (xs ++ [r]) := by
  induction fns with
  | nil => rfl
  | cons fn rest ih =>
    simp only [updRegion, regionFor, List.map_cons, List.zipWith_cons_cons] at ih ⊢
    rw [fold_append]
    exact congrArg _ ih

lemma createdRegion_eq_regionFor (fns : List (AggFn V ρ)) :
    createdRegion fns = regionFor fns ([] : List ρ) := by
  simp [createdRegion, regionFor, AggFn.fold]

lemma updAll_regionFor (fns : List (AggFn V ρ)) :
    ∀ (ys xs : List ρ), updAll fns (regionFor fns xs) ys = regionFor fns (xs ++ ys) := by
  intro ys
  induction ys with
  | nil => intro xs; simp [updAll]
  | cons y ys ih =>
    intro xs
    have h1 : updAll fns (regionFor fns xs) (y :: ys) =
        updAll fns (updRegion fns (regionFor fns xs) y) ys := by
      simp [updAll]
    rw [h1, updRegion_regionFor, ih]
    simp

lemma mergeRegion_regionFor (xs ys : List ρ) :
    ∀ fns : List (AggFn V ρ),
      (∀ fn ∈ fns, fn.mergeSt (fn.fold xs) (fn.fold ys) = fn.fold (xs ++ ys)) →
      mergeRegion fns (regionFor fns xs) (regionFor fns ys) = regionFor fns (xs ++ ys) := by
  intro fns
  induction fns with
  | nil => intro _; rfl
  | cons fn rest ih =>
    intro hm
    simp only [mergeRegion, regionFor, List.map_cons, List.zip_cons_cons,
      List.zipWith_cons_cons] at ih ⊢
    rw [hm fn (by simp)]
    exact congrArg _ (ih (fun g hg => hm g (by simp [hg])))

lemma lookup_alUpdate_ne [DecidableEq K] (m : List (K × R)) (k : K) (f : R → R)
    (q : K) (h : q ≠ k) : (alUpdate m k f).lookup q = m.lookup q := by
  induction m with
  | nil => rfl
  | cons e rest ih =>
    by_cases he : e.1 = k
    · subst he
      have : (q == e.1) = false := by simp [h]
      simp [alUpdate, List.lookup, this]
    · by_cases hq : q = e.1 <;> simp [alUpdate, List.lookup, he, hq, ih]

lemma lookup_append_single [DecidableEq K] (m : List (K × R)) (e : K × R) (k : K) :
    (m ++ [e]).lookup k =
      match m.lookup k with
      | some v => some v
      | none => if k = e.1 then some e.2 else none := by
  induction m with
  | nil =>
    by_cases hk : k = e.1
    · simp [List.lookup, hk]
    · have hb : (k == e.1) = false := by simp [hk]
      simp [List.lookup, hb, hk]
  | cons a rest ih =>
    by_cases ha : k = a.1
    · simp [List.lookup, ha]
    · have : (k == a.1) = false := by simp [ha]
      simp [List.lookup, this, ih]

lemma rowsFor_cons [DecidableEq K] (k : K) (r : K × ρ) (rows : List (K × ρ)) :
    rowsFor k (r :: rows) =
      if r.1 = k then r.2 :: rowsFor k rows else rowsFor k rows := by
  by_cases h : r.1 = k <;> simp [rowsFor, h]

lemma rowsFor_append [DecidableEq K] (k : K) (xs ys : List (K × ρ)) :
    rowsFor k (xs ++ ys) = rowsFor k xs ++ rowsFor k ys := by
  simp [rowsFor]

lemma executeImpl_cons [DecidableEq K] (fns : List (AggFn V ρ)) (nmk : Bool)
    (r : K × ρ) (rest : List (K × ρ)) (m : List (K × List V)) (ovf : Option (List V)) :
    executeImpl fns nmk (r :: rest) m ovf =
      executeImpl fns nmk rest (executeImplRow fns nmk m ovf r).1
        (executeImplRow fns nmk m ovf r).2 := by
  simp [executeImpl]

lemma executeImpl_lookup [DecidableEq K] (fns : List (AggFn V ρ)) :
    ∀ (rows : List (K × ρ)) (m : List (K × List V)) (ovf : Option (List V)) (k : K),
      (executeImpl fns false rows m ovf).1.lookup k =
        match m.lookup k with
        | some vs => some (updAll fns vs (rowsFor k rows))
        | none =>
          if (rowsFor k rows).isEmpty then none
          else some (updAll fns (createdRegion fns) (rowsFor k rows)) := by
  intro rows
  induction rows with
  | nil =>
    intro m ovf k
    cases hm : m.lookup k <;> simp [executeImpl, hm, updAll, rowsFor]
  | cons r rest ih =>
    intro m ovf k
    rw [executeImpl_cons]
    by_cases hr : (m.lookup r.1).isSome
    · -- the row's key is present: update in place
      obtain ⟨vs, hvs⟩ := Option.isSome_iff_exists.mp hr
      have hrow : executeImplRow fns false m ovf r = (alUpdate m r.1
          (fun vs => updRegion fns vs r.2), ovf) := by
        simp [executeImplRow, hvs]
      rw [hrow]
      by_cases hk : r.1 = k
      · subst hk
        rw [ih, lookup_alUpdate_self m r.1 _ vs hvs, hvs, rowsFor_cons, if_pos rfl]
        simp [updAll]
      · rw [ih, lookup_alUpdate_ne m r.1 _ k (fun h => hk h.symm), rowsFor_cons,
          if_neg hk]
    · -- new key: append a fresh group
      have hnone : m.lookup r.1 = none := Option.not_isSome_iff_eq_none.mp hr
      have hrow : executeImplRow fns false m ovf r =
          (m ++ [(r.1, updRegion fns (createdRegion fns) r.2)], ovf) := by
        simp [executeImplRow, hnone]
      rw [hrow, ih, lookup_append_single]
      by_cases hk : r.1 = k
      · subst hk
        rw [hnone, rowsFor_cons, if_pos rfl]
        simp [hnone, updAll]
      · rw [rowsFor_cons, if_neg hk]
        have hkr : ¬ (k = r.1) := fun h => hk h.symm
        cases hm : m.lookup k with
        | some vs => simp [hm]
        | none => simp [hm, hkr]

lemma aggregate_lookup [DecidableEq K] (fns : List (AggFn V ρ)) (rows : List (K × ρ))
    (k : K) :
    (aggregate fns rows).lookup k =
      if (rowsFor k rows).isEmpty then none
      else some (regionFor fns (rowsFor k rows)) := by
  rw [aggregate, executeImpl_lookup]
  simp only [List.lookup]
  rw [createdRegion_eq_regionFor, updAll_regionFor]
  simp

lemma lookup_none_of_not_mem [DecidableEq K] (m : List (K × R)) (k : K)
    (h : k ∉ m.map Prod.fst) : m.lookup k = none := by
  induction m with
  | nil => rfl
  | cons e rest ih =>
    simp only [List.map_cons, List.mem_cons] at h
    push_neg at h
    have hb : (k == e.1) = false := by simp [h.1]
    simp [List.lookup, hb, ih h.2]

lemma mem_keys_lookup_isSome [DecidableEq K] (m : List (K × R)) (k : K)
    (h : k ∈ m.map Prod.fst) : (m.lookup k).isSome := by
  induction m with
  | nil => simp at h
  | cons e rest ih =>
    by_cases hk : k = e.1
    · simp [List.lookup, hk]
    · have hb : (k == e.1) = false := by simp [hk]
      simp only [List.map_cons, List.mem_cons] at h
      rcases h with h | h
      · exact absurd h hk
      · simp [List.lookup, hb, ih h]

lemma executeImpl_keys_nodup [DecidableEq K] (fns : List (AggFn V ρ)) :
    ∀ (rows : List (K × ρ)) (m : List (K × List V)) (ovf : Option (List V)),
      (m.map Prod.fst).Nodup → (((executeImpl fns false rows m ovf).1.map Prod.fst)).Nodup := by
  intro rows
  induction rows with
  | nil => intro m ovf h; simpa [executeImpl] using h
  | cons r rest ih =>
    intro m ovf h
    rw [executeImpl_cons]
    by_cases hr : (m.lookup r.1).isSome
    · obtain ⟨vs, hvs⟩ := Option.isSome_iff_exists.mp hr
      have hrow : executeImplRow fns false m ovf r = (alUpdate m r.1
          (fun vs => updRegion fns vs r.2), ovf) := by
        simp [executeImplRow, hvs]
      rw [hrow]
      exact ih _ _ (by rwa [alUpdate_keys])
    · have hnone : m.lookup r.1 = none := Option.not_isSome_iff_eq_none.mp hr
      have hrow : executeImplRow fns false m ovf r =
          (m ++ [(r.1, updRegion fns (createdRegion fns) r.2)], ovf) := by
        simp [executeImplRow, hnone]
      rw [hrow]
      apply ih
      have hmem : r.1 ∉ m.map Prod.fst := fun hc =>
        hr (mem_keys_lookup_isSome m r.1 hc)
      rw [List.map_append]
      exact ((List.perm_append_singleton _ _).nodup_iff).mpr (by simp [hmem, h])

lemma aggregate_keys_nodup [DecidableEq K] (fns : List (AggFn V ρ))
    (rows : List (K × ρ)) : ((aggregate fns rows).map Prod.fst).Nodup := by
  rw [aggregate]
  exact executeImpl_keys_nodup fns rows [] none (by simp)

lemma mergeData_foldl_acc [DecidableEq K] (fns : List (AggFn V ρ)) :
    ∀ (src : List (K × List V)) (dst : List (K × List V)) (acc : List (List V)),
      (src.foldl
        (fun p e =>
          match p.1.lookup e.1 with
          | some _ => (alUpdate p.1 e.1 (fun d => mergeRegion fns d e.2), p.2 ++ [e.2])
          | none => (p.1 ++ [e], p.2))
        (dst, acc)) =
      ((mergeDataImpl fns dst src).1, acc ++ (mergeDataImpl fns dst src).2) := by
  intro src
  induction src with
  | nil => intro dst acc; simp [mergeDataImpl]
  | cons e rest ih =>
    intro dst acc
    cases hp : dst.lookup e.1 with
    | some d =>
      simp only [mergeDataImpl, List.foldl_cons, hp]
      rw [ih, ih]
      simp
    | none =>
      simp only [mergeDataImpl, List.foldl_cons, hp]
      rw [ih, ih]
      simp

lemma mergeDataImpl_cons_present [DecidableEq K] (fns : List (AggFn V ρ))
    (dst : List (K × List V)) (e : K × List V) (rest : List (K × List V))
    (d : List V) (hp : dst.lookup e.1 = some d) :
    mergeDataImpl fns dst (e :: rest) =
      ((mergeDataImpl fns (alUpdate dst e.1 (fun x => mergeRegion fns x e.2)) rest).1,
        e.2 :: (mergeDataImpl fns (alUpdate dst e.1 (fun x => mergeRegion fns x e.2))
          rest).2) := by
  simp only [mergeDataImpl, List.foldl_cons, hp]
  rw [mergeData_foldl_acc]
  simp [mergeDataImpl]

lemma mergeDataImpl_cons_absent [DecidableEq K] (fns : List (AggFn V ρ))
    (dst : List (K × List V)) (e : K × List V) (rest : List (K × List V))
    (hp : dst.lookup e.1 = none) :
    mergeDataImpl fns dst (e :: rest) = mergeDataImpl fns (dst ++ [e]) rest := by
  simp only [mergeDataImpl, List.foldl_cons, hp]

lemma mergeDataImpl_lookup [DecidableEq K] (fns : List (AggFn V ρ)) :
    ∀ (src dst : List (K × List V)) (k : K), ((src.map Prod.fst)).Nodup →
      (mergeDataImpl fns dst src).1.lookup k =
        match dst.lookup k, src.lookup k with
        | some d, some srec => some (mergeRegion fns d srec)
        | some d, none => some d
        | none, some srec => some srec
        | none, none => none := by
  intro src
  induction src with
  | nil =>
    intro dst k _
    cases hd : dst.lookup k <;> simp [mergeDataImpl, List.lookup, hd]
  | cons e rest ih =>
    intro dst k hnd
    simp only [List.map_cons, List.nodup_cons] at hnd
    cases hp : dst.lookup e.1 with
    | some d =>
      rw [mergeDataImpl_cons_present fns dst e rest d hp]
      by_cases hk : k = e.1
      · rw [ih _ k hnd.2, hk, lookup_alUpdate_self dst e.1 _ d hp,
          lookup_none_of_not_mem rest e.1 hnd.1, hp]
        simp [List.lookup]
      · have hb : (k == e.1) = false := by simp [hk]
        rw [ih _ k hnd.2, lookup_alUpdate_ne dst e.1 _ k hk]
        simp [List.lookup, hb]
    | none =>
      rw [mergeDataImpl_cons_absent fns dst e rest hp, ih _ k hnd.2,
        lookup_append_single]
      by_cases hk : k = e.1
      · rw [hk, hp, lookup_none_of_not_mem rest e.1 hnd.1]
        simp [List.lookup]
      · have hb : (k == e.1) = false := by simp [hk]
        cases hd : dst.lookup k <;> simp [List.lookup, hb, hk]

lemma mergeDataImpl_trace [DecidableEq K] (fns : List (AggFn V ρ)) :
    ∀ (src dst : List (K × List V)), ((src.map Prod.fst)).Nodup →
      (mergeDataImpl fns dst src).2 =
        (src.filter (fun e => (dst.lookup e.1).isSome)).map Prod.snd := by
  intro src
  induction src with
  | nil => intro dst _; simp [mergeDataImpl]
  | cons e rest ih =>
    intro dst hnd
    simp only [List.map_cons, List.nodup_cons] at hnd
    have hcongr : ∀ dst' : List (K × List V),
        (∀ q, q ∈ rest.map Prod.fst → dst'.lookup q = dst.lookup q) →
        rest.filter (fun x => (dst'.lookup x.1).isSome) =
          rest.filter (fun x => (dst.lookup x.1).isSome) := by
      intro dst' hq
      apply List.filter_congr
      intro x hx
      rw [hq x.1 (List.mem_map.mpr ⟨x, hx, rfl⟩)]
    cases hp : dst.lookup e.1 with
    | some d =>
      rw [mergeDataImpl_cons_present fns dst e rest d hp, ih _ hnd.2]
      rw [hcongr _ (fun q hqm => lookup_alUpdate_ne dst e.1 _ q
        (fun hc : q = e.1 => hnd.1 (hc ▸ hqm)))]
      rw [List.filter_cons, if_pos (by simp [hp])]
      simp
    | none =>
      rw [mergeDataImpl_cons_absent fns dst e rest hp, ih _ hnd.2]
      rw [hcongr _ ?later]
      · rw [List.filter_cons, if_neg (by simp [hp])]
      · intro q hqm
        rw [lookup_append_single]
        cases hd : dst.lookup q with
        | some v => simp
        | none =>
          rw [if_neg (fun hc : q = e.1 => hnd.1 (hc ▸ hqm))]

lemma rowsFor_of_aggregate_empty [DecidableEq K] (fns : List (AggFn V ρ))
    (rows : List (K × ρ)) (h : aggregate fns rows = []) (k : K) :
    rowsFor k rows = [] := by
  have hl := aggregate_lookup fns rows k
  rw [h] at hl
  simp only [List.lookup] at hl
  by_cases he : (rowsFor k rows).isEmpty
  · exact List.isEmpty_iff.mp he
  · rw [if_neg he] at hl
    exact absurd hl.symm (by simp)

lemma mergeData_agg_lookup [DecidableEq K] (fns : List (AggFn V ρ))
    (Hm : ∀ fn ∈ fns, ∀ xs ys : List ρ,
      fn.mergeSt (fn.fold xs) (fn.fold ys) = fn.fold (xs ++ ys))
    (R S : List (K × ρ)) (dst : List (K × List V))
    (hdst : ∀ k, dst.lookup k = (aggregate fns R).lookup k) (k : K) :
    (mergeDataImpl fns dst (aggregate fns S)).1.lookup k =
      (aggregate fns (R ++ S)).lookup k := by
  rw [mergeDataImpl_lookup fns (aggregate fns S) dst k (aggregate_keys_nodup fns S),
    hdst k, aggregate_lookup, aggregate_lookup, aggregate_lookup, rowsFor_append]
  by_cases hR : (rowsFor k R).isEmpty
  · have hR' : rowsFor k R = [] := List.isEmpty_iff.mp hR
    by_cases hS : (rowsFor k S).isEmpty
    · have hS' : rowsFor k S = [] := List.isEmpty_iff.mp hS
      simp [hR', hS']
    · have hS' : rowsFor k S ≠ [] := fun hc => hS (by simp [hc])
      rw [if_pos hR, if_neg hS, if_neg (by simp [hR', hS'])]
      simp [hR']
  · have hR' : rowsFor k R ≠ [] := fun hc => hR (by simp [hc])
    by_cases hS : (rowsFor k S).isEmpty
    · have hS' : rowsFor k S = [] := List.isEmpty_iff.mp hS
      rw [if_neg hR, if_pos hS, if_neg (by simp [hS', hR'])]
      simp [hS']
    · have hS' : rowsFor k S ≠ [] := fun hc => hS (by simp [hc])
      rw [if_neg hR, if_neg hS, if_neg (by simp [hR', hS'])]
      have hmr := mergeRegion_regionFor (rowsFor k R) (rowsFor k S) fns
        (fun fn hfn => Hm fn hfn (rowsFor k R) (rowsFor k S))
      simp [hmr]

lemma mergeFold_pointwise [DecidableEq K] (fns : List (AggFn V ρ))
    (Hm : ∀ fn ∈ fns, ∀ xs ys : List ρ,
      fn.mergeSt (fn.fold xs) (fn.fold ys) = fn.fold (xs ++ ys)) :
    ∀ (parts : List (List (K × ρ))) (res : List (K × List V)) (R : List (K × ρ)),
      (∀ k, res.lookup k = (aggregate fns R).lookup k) →
      ∀ k, ((parts.map (aggregate fns)).foldl
          (fun res cur =>
            if cur.isEmpty then res
            else if res.isEmpty then cur
            else (mergeDataImpl fns res cur).1) res).lookup k =
        (aggregate fns (R ++ parts.flatten)).lookup k := by
  intro parts
  induction parts with
  | nil =>
    intro res R hres k
    simpa using hres k
  | cons S rest ih =>
    intro res R hres k
    simp only [List.map_cons, List.foldl_cons]
    by_cases hcur : (aggregate fns S).isEmpty
    · rw [if_pos hcur]
      have hS : aggregate fns S = [] := List.isEmpty_iff.mp hcur
      have hres' : ∀ q, res.lookup q = (aggregate fns (R ++ S)).lookup q := by
        intro q
        rw [hres q, aggregate_lookup, aggregate_lookup, rowsFor_append,
          rowsFor_of_aggregate_empty fns S hS q, List.append_nil]
      have := ih res (R ++ S) hres' k
      rwa [List.append_assoc] at this
    · rw [if_neg hcur]
      by_cases hres0 : res.isEmpty
      · rw [if_pos hres0]
        have hresnil : res = [] := List.isEmpty_iff.mp hres0
        have hRempty : ∀ q, rowsFor q R = [] := by
          intro q
          have hl := hres q
          rw [hresnil] at hl
          simp only [List.lookup] at hl
          rw [aggregate_lookup] at hl
          by_cases he : (rowsFor q R).isEmpty
          · exact List.isEmpty_iff.mp he
          · rw [if_neg he] at hl
            exact absurd hl (by simp)
      
        have hinv : ∀ q, (aggregate fns S).lookup q =
            (aggregate fns (R ++ S)).lookup q := by
          intro q
          rw [aggregate_lookup, aggregate_lookup, rowsFor_append, hRempty q]
          simp
        have := ih (aggregate fns S) (R ++ S) hinv k
        rwa [List.append_assoc] at this
      · rw [if_neg hres0]
        have hinv : ∀ q, (mergeDataImpl fns res (aggregate fns S)).1.lookup q =
            (aggregate fns (R ++ S)).lookup q :=
          fun q => mergeData_agg_lookup fns Hm R S res hres q
        have := ih _ (R ++ S) hinv k
        rwa [List.append_assoc] at this

/-- C1: two-phase aggregation equivalence.  (1) For every partition of a stream into
sub-streams `first :: parts`, aggregating each sub-stream separately and merging the
results with `Aggregator::merge` succeeds and yields, group-wise (for every key),
the same finalized contents as aggregating the whole stream directly — assuming each
aggregate function's `merge` combines folded states (`merge (fold xs) (fold ys) =
fold (xs ++ ys)`).  (2) During `mergeDataImpl`, a key present in both tables ends up
with `dst ← merge(dst, src)` applied at every function offset, a key present only in
the source has its state region transferred unchanged, a key only in the destination
is untouched — and (3) exactly the source regions of keys present in both sides are
destroyed. -/
theorem C1_two_phase_aggregation [DecidableEq K] (fns : List (AggFn V ρ))
    (Hm : ∀ fn ∈ fns, ∀ xs ys : List ρ,
      fn.mergeSt (fn.fold xs) (fn.fold ys) = fn.fold (xs ++ ys))
    (first : List (K × ρ)) (parts : List (List (K × ρ)))
    (dst src : List (K × List V)) (hsrc : (src.map Prod.fst).Nodup) :
    (∃ res, mergeVariants fns ((first :: parts).map (aggregate fns)) = .ok res ∧
        ∀ k, res.lookup k = (aggregate fns ((first :: parts).flatten)).lookup k) ∧
      (∀ k, (mergeDataImpl fns dst src).1.lookup k =
        match dst.lookup k, src.lookup k with
        | some d, some srec => some (mergeRegion fns d srec)
        | some d, none => some d
        | none, some srec => some srec
        | none, none => none) ∧
      (mergeDataImpl fns dst src).2 =
        (src.filter (fun e => (dst.lookup e.1).isSome)).map Prod.snd := by
  refine ⟨?_, ?_, ?_⟩
  · refine ⟨_, rfl, ?_⟩
    intro k
    have := mergeFold_pointwise fns Hm parts (aggregate fns first) first
      (fun _ => rfl) k
    simpa [mergeVariants] using this
  · intro k
    exact mergeDataImpl_lookup fns src dst k hsrc
  · exact mergeDataImpl_trace fns src dst hsrc

/-- C1 witness: a sum aggregate over integer rows, the stream
`[(1, 2), (2, 3), (1, 4)]` split into two sub-streams. -/
theorem C1_two_phase_aggregation_witness :
    (∃ res, mergeVariants [(⟨0, (· + ·), (· + ·)⟩ : AggFn Int Int)]
        ([[(1, 2), (2, 3)], [(1, 4)]].map
          (aggregate [(⟨0, (· + ·), (· + ·)⟩ : AggFn Int Int)])) = .ok res ∧
      ∀ k : Nat, res.lookup k =
        (aggregate [(⟨0, (· + ·), (· + ·)⟩ : AggFn Int Int)]
          [(1, 2), (2, 3), (1, 4)]).lookup k) := by
  have h := C1_two_phase_aggregation (K := Nat)
    [(⟨0, (· + ·), (· + ·)⟩ : AggFn Int Int)]
    (by
      intro fn hfn xs ys
      have hfn' : fn = ⟨0, (· + ·), (· + ·)⟩ := by simpa using hfn
      subst hfn'
      have hsum : ∀ (init : Int) (l : List Int), l.foldl (· + ·) init = init + l.sum := by
        intro init l
        induction l generalizing init with
        | nil => simp
        | cons a l ihl =>
          simp only [List.foldl_cons, ihl, List.sum_cons]
          ring
      simp [AggFn.fold, hsum, List.sum_append])
    [(1, 2), (2, 3)] [[(1, 4)]] [] [] (by simp)
  exact h.1

/-! ### C8 / C10: MergeTreeReadPool -/

lemma sumMarks_cons (r : MarkRange) (rs : List MarkRange) :
    sumMarks (r :: rs) = r.marks + sumMarks rs := by
  simp [sumMarks]

lemma rangesMarks_cons (pidx : Nat) (r : MarkRange) (rs : List MarkRange) :
    rangesMarks pidx (r :: rs) = rangeMarks pidx r + rangesMarks pidx rs := by
  simp [rangesMarks]

lemma rangesMarks_reverse (pidx : Nat) (rs : List MarkRange) :
    rangesMarks pidx rs.reverse = rangesMarks pidx rs := by
  simp only [rangesMarks, List.map_reverse]
  exact List.sum_reverse _

lemma rangeMarks_empty (pidx : Nat) (r : MarkRange) (h : r.hi ≤ r.lo) :
    rangeMarks pidx r = 0 := by
  have : r.marks = 0 := by simp [MarkRange.marks]; omega
  simp [rangeMarks, this]

lemma rangeMarks_split (pidx lo mid hi : Nat) (h1 : lo ≤ mid) (h2 : mid ≤ hi) :
    rangeMarks pidx ⟨lo, hi⟩ = rangeMarks pidx ⟨lo, mid⟩ + rangeMarks pidx ⟨mid, hi⟩ := by
  simp only [rangeMarks, MarkRange.marks]
  have hsum : hi - lo = (mid - lo) + (hi - mid) := by omega
  rw [hsum, List.range_add, List.map_append, List.map_map]
  have hfun : ((fun i => (pidx, lo + i)) ∘ (fun x => (mid - lo) + x)) =
      (fun i => (pidx, mid + i)) := by
    funext x
    simp only [Function.comp]
    congr 1
    omega
  rw [hfun]
  rfl

lemma mem_rangeMarks (pidx : Nat) (r : MarkRange) (x : Nat × Nat) :
    x ∈ rangeMarks pidx r ↔ x.1 = pidx ∧ r.lo ≤ x.2 ∧ x.2 < r.hi := by
  simp only [rangeMarks, Multiset.mem_coe, List.mem_map, List.mem_range,
    MarkRange.marks]
  constructor
  · rintro ⟨i, hi, rfl⟩
    exact ⟨rfl, by omega, by omega⟩
  · rintro ⟨h1, h2, h3⟩
    exact ⟨x.2 - r.lo, by omega, by cases x with | mk a b => simp at h1 ⊢; omega⟩

lemma rangeMarks_nodup (pidx : Nat) (r : MarkRange) : (rangeMarks pidx r).Nodup := by
  simp only [rangeMarks, Multiset.coe_nodup]
  apply List.Nodup.map
  · intro a b hab
    simpa using hab
  · exact List.nodup_range _

lemma getTaskRangesLoop_zero (rs acc : List MarkRange) :
    getTaskRangesLoop 0 rs acc = (acc, rs, 0) := by
  rw [getTaskRangesLoop.eq_def, dif_pos rfl]

lemma getTaskRangesLoop_nil (need : Nat) (hneed : need ≠ 0) (acc : List MarkRange) :
    getTaskRangesLoop need [] acc = (acc, [], need) := by
  rw [getTaskRangesLoop.eq_def]
  rw [dif_neg hneed]

lemma getTaskRangesLoop_cons (need : Nat) (hneed : need ≠ 0) (r : MarkRange)
    (rs0 acc : List MarkRange) (hz : min r.marks need ≠ 0) :
    getTaskRangesLoop need (r :: rs0) acc =
      getTaskRangesLoop (need - min r.marks need)
        (if r.lo + min r.marks need = r.hi then rs0
         else ⟨r.lo + min r.marks need, r.hi⟩ :: rs0)
        (⟨r.lo, r.lo + min r.marks need⟩ :: acc) := by
  conv_lhs => rw [getTaskRangesLoop.eq_def]
  rw [dif_neg hneed]
  dsimp only
  rw [dif_neg hz]

/-- Full specification of the `getTask` range-biting loop (induction on
`need + |ranges|`): when the requested marks fit in the ranges, the loop consumes
exactly `need` marks, conserves the marks multiset, and keeps the taken pieces and
the remainder wellformed and separated (taken pieces strictly to the left). -/
lemma getTaskRangesLoop_spec (pidx : Nat) :
    ∀ (N need : Nat) (rs acc : List MarkRange), need + rs.length ≤ N →
      (∀ r ∈ rs, r.lo < r.hi) → rs.Pairwise (fun a b => a.hi ≤ b.lo) →
      need ≤ sumMarks rs →
      acc.Pairwise (fun a b => b.hi ≤ a.lo) → (∀ a ∈ acc, a.lo < a.hi) →
      (∀ a ∈ acc, ∀ b ∈ rs, a.hi ≤ b.lo) →
      (getTaskRangesLoop need rs acc).2.2 = 0 ∧
        rangesMarks pidx (getTaskRangesLoop need rs acc).1 +
          rangesMarks pidx (getTaskRangesLoop need rs acc).2.1 =
          rangesMarks pidx acc + rangesMarks pidx rs ∧
        sumMarks (getTaskRangesLoop need rs acc).1 = sumMarks acc + need ∧
        sumMarks (getTaskRangesLoop need rs acc).2.1 = sumMarks rs - need ∧
        (∀ r ∈ (getTaskRangesLoop need rs acc).2.1, r.lo < r.hi) ∧
        (getTaskRangesLoop need rs acc).2.1.Pairwise (fun a b => a.hi ≤ b.lo) ∧
        (getTaskRangesLoop need rs acc).1.Pairwise (fun a b => b.hi ≤ a.lo) ∧
        (∀ a ∈ (getTaskRangesLoop need rs acc).1, a.lo < a.hi) ∧
        (∀ a ∈ (getTaskRangesLoop need rs acc).1,
          ∀ b ∈ (getTaskRangesLoop need rs acc).2.1, a.hi ≤ b.lo) := by
  intro N
  induction N with
  | zero =>
    intro need rs acc hN hr hp hle hacc haccne hsep
    have hneed : need = 0 := by omega
    subst hneed
    rw [getTaskRangesLoop_zero]
    exact ⟨rfl, rfl, by simp, by simp, hr, hp, hacc, haccne, hsep⟩
  | succ N ih =>
    intro need rs acc hN hr hp hle hacc haccne hsep
    by_cases hneed : need = 0
    · subst hneed
      rw [getTaskRangesLoop_zero]
      exact ⟨rfl, rfl, by simp, by simp, hr, hp, hacc, haccne, hsep⟩
    · cases rs with
      | nil =>
        exfalso
        simp [sumMarks] at hle
        omega
      | cons r rs0 =>
        have hrhead : r.lo < r.hi := hr r (by simp)
        have htake : min r.marks need ≠ 0 := by
          simp only [MarkRange.marks]
          omega
        rw [getTaskRangesLoop_cons need hneed r rs0 acc htake]
        set take := min r.marks need with htake_def
        have htake_le_marks : take ≤ r.marks := Nat.min_le_left _ _
        have htake_le_need : take ≤ need := Nat.min_le_right _ _
        have htake_pos : 0 < take := Nat.pos_of_ne_zero htake
        set piece : MarkRange := ⟨r.lo, r.lo + take⟩ with hpiece
        set rrem : MarkRange := ⟨r.lo + take, r.hi⟩ with hrrem
        set ranges' : List MarkRange :=
          if r.lo + take = r.hi then rs0 else rrem :: rs0 with hranges'
        -- facts about the remainder ranges
        have hsum0 : sumMarks (r :: rs0) = r.marks + sumMarks rs0 := sumMarks_cons r rs0
        have hsum' : sumMarks ranges' = sumMarks (r :: rs0) - take := by
          rw [hranges']
          by_cases hfull : r.lo + take = r.hi
          · rw [if_pos hfull, hsum0]
            simp only [MarkRange.marks] at htake_le_marks ⊢
            omega
          · rw [if_neg hfull, sumMarks_cons, hsum0]
            simp only [MarkRange.marks, hrrem] at htake_le_marks ⊢
            omega
        have hmarks_split : rangeMarks pidx r =
            rangeMarks pidx piece + rangeMarks pidx rrem := by
          have := rangeMarks_split pidx r.lo (r.lo + take) r.hi (by omega)
            (by simp only [MarkRange.marks] at htake_le_marks; omega)
          simpa [hpiece, hrrem] using this
        have hmarks' : rangesMarks pidx ranges' =
            rangeMarks pidx rrem + rangesMarks pidx rs0 := by
          rw [hranges']
          by_cases hfull : r.lo + take = r.hi
          · rw [if_pos hfull, rangeMarks_empty pidx rrem (by simp [hrrem, hfull])]
            simp
          · rw [if_neg hfull, rangesMarks_cons]
        have hr' : ∀ x ∈ ranges', x.lo < x.hi := by
          intro x hx
          rw [hranges'] at hx
          by_cases hfull : r.lo + take = r.hi
          · rw [if_pos hfull] at hx
            exact hr x (by simp [hx])
          · rw [if_neg hfull] at hx
            rcases List.mem_cons.mp hx with h1 | h1
            · subst h1
              simp only [hrrem]
              simp only [MarkRange.marks] at htake_le_marks
              omega
            · exact hr x (by simp [h1])
        have hp0 := (List.pairwise_cons.mp hp)
        have hp' : ranges'.Pairwise (fun a b => a.hi ≤ b.lo) := by
          rw [hranges']
          by_cases hfull : r.lo + take = r.hi
          · rw [if_pos hfull]
            exact hp0.2
          · rw [if_neg hfull]
            refine List.pairwise_cons.mpr ⟨?_, hp0.2⟩
            intro b hb
            have := hp0.1 b hb
            simp only [hrrem]
            omega
        have hle2 : need ≤ r.marks + sumMarks rs0 := by
          rw [← hsum0]
          exact hle
        have hle' : need - take ≤ sumMarks ranges' := by
          rw [hsum', hsum0]
          omega
        have hacc' : (piece :: acc).Pairwise (fun a b => b.hi ≤ a.lo) := by
          refine List.pairwise_cons.mpr ⟨?_, hacc⟩
          intro b hb
          have := hsep b hb r (by simp)
          simp only [hpiece]
          omega
        have haccne' : ∀ a ∈ piece :: acc, a.lo < a.hi := by
          intro a ha
          rcases List.mem_cons.mp ha with h1 | h1
          · subst h1
            simp only [hpiece]
            omega
          · exact haccne a h1
        have hsep' : ∀ a ∈ piece :: acc, ∀ b ∈ ranges', a.hi ≤ b.lo := by
          intro a ha b hb
          have hblo : r.lo + take ≤ b.lo := by
            rw [hranges'] at hb
            by_cases hfull : r.lo + take = r.hi
            · rw [if_pos hfull] at hb
              have := hp0.1 b (by simpa using hb)
              omega
            · rw [if_neg hfull] at hb
              rcases List.mem_cons.mp hb with h1 | h1
              · subst h1
                simp [hrrem]
              · have := hp0.1 b (by simpa using h1)
                simp only [MarkRange.marks] at htake_le_marks
                omega
          rcases List.mem_cons.mp ha with h1 | h1
          · subst h1
            simpa [hpiece] using hblo
          · have := hsep a h1 r (by simp)
            omega
        have hNlen : (need - take) + ranges'.length ≤ N := by
          have hlen : ranges'.length ≤ rs0.length + 1 := by
            rw [hranges']
            by_cases hfull : r.lo + take = r.hi <;> simp [hfull]
          simp only [List.length_cons] at hN
          omega
        have hrec := ih (need - take) ranges' (piece :: acc) hNlen hr' hp' hle'
          hacc' haccne' hsep'
        refine ⟨hrec.1, ?_, ?_, ?_, hrec.2.2.2.2.1, hrec.2.2.2.2.2.1,
          hrec.2.2.2.2.2.2.1, hrec.2.2.2.2.2.2.2.1, hrec.2.2.2.2.2.2.2.2⟩
        · rw [hrec.2.1, hmarks', rangesMarks_cons pidx piece acc,
            rangesMarks_cons pidx r rs0, hmarks_split]
          have : ∀ a b c d : Multiset (Nat × Nat),
              a + b + (c + d) = b + (a + c + d) := by
            intro a b c d
            have h1 : a + b + (c + d) = b + (a + (c + d)) := by
              rw [add_comm a b, add_assoc]
            rw [h1, add_assoc]
          exact this _ _ _ _
        · rw [hrec.2.2.1, sumMarks_cons]
          simp only [hpiece, MarkRange.marks]
          omega
        · rw [hrec.2.2.2.1, hsum', hsum0]
          simp only [MarkRange.marks] at htake_le_marks ⊢
          omega

lemma needFormula_le (m mm : Nat) : needFormula m mm ≤ m := by
  simp only [needFormula]
  split <;> omega

lemma needFormula_pos (m mm : Nat) (hm : 0 < m) (hmm : 0 < mm) :
    0 < needFormula m mm := by
  simp only [needFormula]
  split <;> omega

lemma needFormula_whole (m mm : Nat) (h : m ≤ needFormula m mm) :
    needFormula m mm = m :=
  Nat.le_antisymm (needFormula_le m mm) h

lemma needFormula_partial (m mm : Nat) (h : needFormula m mm < m) :
    mm ≤ m - needFormula m mm := by
  simp only [needFormula] at h ⊢
  split at h
  · exact absurd h (lt_irrefl m)
  · rename_i hc
    rw [if_neg hc]
    push_neg at hc
    exact hc h

lemma getD_set_ne (l : List ThreadTask) (i j : Nat) (a : ThreadTask) (h : j ≠ i) :
    (l.set i a).getD j ThreadTask.empty = l.getD j ThreadTask.empty := by
  simp [List.getD]
  rw [List.getElem?_set_ne (by omega)]

lemma getD_set_self (l : List ThreadTask) (i : Nat) (a : ThreadTask)
    (h : i < l.length) : (l.set i a).getD i ThreadTask.empty = a := by
  rw [List.getD_eq_getElem _ _ (by simpa using h)]
  simp [h]

lemma sumMarks_reverse (rs : List MarkRange) : sumMarks rs.reverse = sumMarks rs := by
  simp only [sumMarks, List.map_reverse]
  exact List.sum_reverse _

/-- Replacing one thread queue by a queue holding `M` fewer marks removes exactly
`M` from the pool total. -/
lemma poolMarks_set (l : List ThreadTask) :
    ∀ (i : Nat) (x : ThreadTask), i < l.length →
      ∀ M : Multiset (Nat × Nat),
        M + threadMarks x = threadMarks (l.getD i ThreadTask.empty) →
        M + ((l.set i x).map threadMarks).sum = (l.map threadMarks).sum := by
  induction l with
  | nil => intro i x h; simp at h
  | cons a rest ih =>
    intro i x h M hM
    cases i with
    | zero =>
      simp only [List.getD_cons_zero] at hM
      simp only [List.set_cons_zero, List.map_cons, List.sum_cons]
      rw [← add_assoc, hM]
    | succ n =>
      simp only [List.getD_cons_succ] at hM
      simp only [List.set_cons_succ, List.map_cons, List.sum_cons]
      have hrec := ih n x (by simp only [List.length_cons] at h; omega) M hM
      rw [← hrec]
      abel

/-- Full specification of the serving half of `getTask` on the chosen thread: the
task served comes from the back entry of that thread's queue, takes exactly
`needFormula` many marks, its ranges read left to right and lie within the part,
only that thread's queue changes, the pool invariant is preserved and the marks
multiset is conserved. -/
lemma serveFromThread_spec (pool : Pool) (mm tstar : Nat)
    (hWF : poolWF pool) (ht : tstar < pool.threads_tasks.length) (hmm : 0 < mm)
    (hne : (pool.threads_tasks.getD tstar ThreadTask.empty).sum_marks_in_parts ≠ []) :
    ∃ task pool', serveFromThread pool mm tstar = some (task, pool') ∧
      task.part_idx =
        ((pool.threads_tasks.getD tstar ThreadTask.empty).parts_and_ranges.headD
          (0, [])).1 ∧
      sumMarks task.ranges = needFormula
        ((pool.threads_tasks.getD tstar ThreadTask.empty).sum_marks_in_parts.headD 0)
        mm ∧
      task.ranges.reverse.Pairwise (fun a b => a.hi ≤ b.lo) ∧
      (∀ r ∈ task.ranges, r.lo < r.hi) ∧
      (∀ j, j ≠ tstar →
        pool'.threads_tasks.getD j ThreadTask.empty =
          pool.threads_tasks.getD j ThreadTask.empty) ∧
      pool'.threads_tasks.length = pool.threads_tasks.length ∧
      pool'.do_not_steal_tasks = pool.do_not_steal_tasks ∧
      poolWF pool' ∧
      taskMarks task + poolMarks pool' = poolMarks pool := by
  obtain ⟨hWF1, hWF2, hWF3, hWF4⟩ := hWF
  set tt := pool.threads_tasks.getD tstar ThreadTask.empty with htt
  have httmem : tt ∈ pool.threads_tasks := by
    rw [htt, List.getD_eq_getElem _ _ ht]
    exact List.getElem_mem ht
  obtain ⟨hlen, hentry⟩ := hWF1 tt httmem
  obtain ⟨m, sm_rest, hsm⟩ : ∃ m sm_rest, tt.sum_marks_in_parts = m :: sm_rest := by
    cases hc : tt.sum_marks_in_parts with
    | nil => exact absurd hc hne
    | cons a b => exact ⟨a, b, rfl⟩
  obtain ⟨pidx, ranges, pr_rest, hpr⟩ :
      ∃ pidx ranges pr_rest, tt.parts_and_ranges = (pidx, ranges) :: pr_rest := by
    cases hc : tt.parts_and_ranges with
    | nil => rw [hc, hsm] at hlen; simp at hlen
    | cons a b =>
      obtain ⟨p, r⟩ := a
      exact ⟨p, r, b, rfl⟩
  have hheadWF : entryWF (pidx, ranges) m :=
    hentry ((pidx, ranges), m) (by rw [hpr, hsm]; simp)
  obtain ⟨hm_eq, hrWF, hm_pos⟩ := hheadWF
  have hm_eq' : m = sumMarks ranges := hm_eq
  have hrne : ∀ r ∈ ranges, r.lo < r.hi := hrWF.1
  have hrpair : ranges.Pairwise (fun a b => a.hi ≤ b.lo) := hrWF.2
  have htailWF : threadWF ⟨pr_rest, sm_rest⟩ := by
    refine ⟨?_, ?_⟩
    · have h0 := hlen
      rw [hpr, hsm] at h0
      simpa using h0
    · intro p hp
      apply hentry
      rw [hpr, hsm]
      simp only [List.zip_cons_cons, List.mem_cons]
      exact Or.inr hp
  have hlen2 : pr_rest.length = sm_rest.length := htailWF.1
  have hserve : serveFromThread pool mm tstar =
      (if m ≤ needFormula m mm then
        some (⟨pidx, ranges.reverse⟩,
          ⟨pool.threads_tasks.set tstar ⟨pr_rest, sm_rest⟩,
            if sm_rest.isEmpty then pool.remaining_thread_tasks.erase tstar
            else pool.remaining_thread_tasks, pool.do_not_steal_tasks⟩)
      else
        some (⟨pidx, (getTaskRangesLoop (needFormula m mm) ranges []).1⟩,
          ⟨pool.threads_tasks.set tstar
            ⟨(pidx, (getTaskRangesLoop (needFormula m mm) ranges []).2.1) :: pr_rest,
              (m - (needFormula m mm -
                (getTaskRangesLoop (needFormula m mm) ranges []).2.2)) :: sm_rest⟩,
            pool.remaining_thread_tasks, pool.do_not_steal_tasks⟩)) := by
    simp only [serveFromThread]
    rw [← htt, hpr, hsm]
  by_cases hwhole : m ≤ needFormula m mm
  · -- the whole back entry is served
    rw [if_pos hwhole] at hserve
    have hneedm : needFormula m mm = m := needFormula_whole m mm hwhole
    refine ⟨_, _, hserve, ?_, ?_, ?_, ?_, ?_, ?_, rfl, ?_, ?_⟩
    · simp [hpr]
    · simp only [hsm, List.headD_cons]
      rw [sumMarks_reverse, hneedm]
      exact hm_eq'.symm
    · simpa using hrpair
    · intro r hr
      exact hrne r (by simpa using hr)
    · intro j hj
      exact getD_set_ne _ _ _ _ hj
    · simp
    · -- the pool invariant is preserved
      simp only [poolWF]
      refine ⟨?_, ?_, ?_, ?_⟩
      · intro x hx
        rcases List.mem_or_eq_of_mem_set hx with h | h
        · exact hWF1 x h
        · rw [h]
          exact htailWF
      · by_cases hse : sm_rest.isEmpty
        · rw [if_pos hse]
          exact hWF2.erase tstar
        · rw [if_neg hse]
          exact hWF2
      · intro i hi
        have hi' : i ∈ pool.remaining_thread_tasks := by
          by_cases hse : sm_rest.isEmpty
          · rw [if_pos hse] at hi
            exact List.mem_of_mem_erase hi
          · rwa [if_neg hse] at hi
        have := hWF3 i hi'
        simpa using this
      · intro i hi
        simp only [List.length_set] at hi
        by_cases hit : i = tstar
        · subst hit
          rw [getD_set_self _ _ _ ht]
          by_cases hse : sm_rest.isEmpty
          · rw [if_pos hse]
            simp only [hWF2.mem_erase_iff]
            simp [List.isEmpty_iff.mp hse]
          · rw [if_neg hse]
            have h1 := hWF4 i ht
            rw [← htt, hsm] at h1
            simp only [h1]
            constructor
            · intro _
              exact fun hc => hse (by simp [hc])
            · intro _
              simp
        · rw [getD_set_ne _ _ _ _ hit]
          have h1 := hWF4 i hi
          by_cases hse : sm_rest.isEmpty
          · rw [if_pos hse, hWF2.mem_erase_iff, ← h1]
            constructor
            · intro h
              exact h.2
            · intro h
              exact ⟨hit, h⟩
          · rw [if_neg hse]
            exact h1
    · -- marks conservation
      simp only [taskMarks, poolMarks]
      rw [rangesMarks_reverse]
      refine poolMarks_set pool.threads_tasks tstar _ ht _ ?_
      rw [← htt]
      simp only [threadMarks]
      rw [hpr]
      simp only [List.map_cons, List.sum_cons]
      rfl
  · -- only `needFormula m mm` marks are bitten off the back entry
    rw [if_neg hwhole] at hserve
    push_neg at hwhole
    have hfrag : mm ≤ m - needFormula m mm := needFormula_partial m mm hwhole
    have hneedpos : 0 < needFormula m mm := needFormula_pos m mm hm_pos hmm
    have hneedle : needFormula m mm ≤ sumMarks ranges := by
      rw [← hm_eq']
      omega
    obtain ⟨hl0, hlmarks, hlsum, hlsumrem, hlremne, hlrempair, hlpair, hlne, hlsep⟩ :=
      getTaskRangesLoop_spec pidx (needFormula m mm + ranges.length) (needFormula m mm)
        ranges [] le_rfl hrne hrpair hneedle (by simp) (by simp) (by simp)
    have hnil : rangesMarks pidx ([] : List MarkRange) = 0 := by simp [rangesMarks]
    rw [hnil, zero_add] at hlmarks
    have hsnil : sumMarks ([] : List MarkRange) = 0 := by simp [sumMarks]
    rw [hsnil, zero_add] at hlsum
    refine ⟨_, _, hserve, ?_, ?_, ?_, ?_, ?_, ?_, rfl, ?_, ?_⟩
    · simp [hpr]
    · simp only [hsm, List.headD_cons]
      exact hlsum
    · rw [List.pairwise_reverse]
      exact hlpair
    · intro r hr
      exact hlne r hr
    · intro j hj
      exact getD_set_ne _ _ _ _ hj
    · simp
    · -- the pool invariant is preserved
      simp only [poolWF]
      refine ⟨?_, hWF2, ?_, ?_⟩
      · intro x hx
        rcases List.mem_or_eq_of_mem_set hx with h | h
        · exact hWF1 x h
        · rw [h]
          refine ⟨?_, ?_⟩
          · simp [hlen2]
          · intro p hp
            simp only [List.zip_cons_cons, List.mem_cons] at hp
            rcases hp with hp | hp
            · rw [hp]
              refine ⟨?_, ⟨hlremne, hlrempair⟩, ?_⟩
              · dsimp only
                rw [hl0, hlsumrem]
                omega
              · dsimp only
                rw [hl0]
                omega
            · exact htailWF.2 p hp
      · intro i hi
        have := hWF3 i hi
        simpa using this
      · intro i hi
        simp only [List.length_set] at hi
        by_cases hit : i = tstar
        · subst hit
          rw [getD_set_self _ _ _ ht]
          have h1 := hWF4 i ht
          rw [← htt, hsm] at h1
          simp [h1]
        · rw [getD_set_ne _ _ _ _ hit]
          exact hWF4 i hi
    · -- marks conservation
      simp only [taskMarks, poolMarks]
      refine poolMarks_set pool.threads_tasks tstar _ ht _ ?_
      rw [← htt]
      simp only [threadMarks]
      rw [hpr]
      simp only [List.map_cons, List.sum_cons]
      have hlm' : rangesMarks pidx (getTaskRangesLoop (needFormula m mm) ranges []).1 +
          entryMarks (pidx, (getTaskRangesLoop (needFormula m mm) ranges []).2.1) =
          entryMarks (pidx, ranges) := hlmarks
      rw [← hlm']
      abel

/-- C8: `getTask(min_marks, thread)` returns none when no thread has tasks; serves
from the calling thread's own queue when that queue is nonempty; when the own queue
is empty it returns none if `do_not_steal_tasks` is set and otherwise steals from a
thread that still has tasks; the amount taken from the current part is
`min(marks_in_part, min_marks)`, extended to the whole remainder whenever taking
less would leave fewer than `min_marks` marks in the part (`needFormula`); and the
returned task's mark ranges read left to right. -/
theorem C8_getTask_dispatch (pool : Pool) (mm thread : Nat)
    (hWF : poolWF pool) (hmm : 0 < mm) :
    (pool.remaining_thread_tasks = [] → getTask pool mm thread = none) ∧
    ((pool.threads_tasks.getD thread ThreadTask.empty).sum_marks_in_parts = [] →
      pool.do_not_steal_tasks = true → getTask pool mm thread = none) ∧
    ((pool.threads_tasks.getD thread ThreadTask.empty).sum_marks_in_parts ≠ [] →
      ∃ task pool', getTask pool mm thread = some (task, pool') ∧
        task.part_idx =
          ((pool.threads_tasks.getD thread ThreadTask.empty).parts_and_ranges.headD
            (0, [])).1 ∧
        sumMarks task.ranges = needFormula
          ((pool.threads_tasks.getD thread ThreadTask.empty).sum_marks_in_parts.headD 0)
          mm ∧
        task.ranges.reverse.Pairwise (fun a b => a.hi ≤ b.lo) ∧
        (∀ r ∈ task.ranges, r.lo < r.hi)) ∧
    ((pool.threads_tasks.getD thread ThreadTask.empty).sum_marks_in_parts = [] →
      pool.do_not_steal_tasks = false → pool.remaining_thread_tasks ≠ [] →
      ∃ task pool', getTask pool mm thread = some (task, pool') ∧
        (pool.threads_tasks.getD (pool.remaining_thread_tasks.headD 0)
          ThreadTask.empty).sum_marks_in_parts ≠ [] ∧
        task.part_idx =
          ((pool.threads_tasks.getD (pool.remaining_thread_tasks.headD 0)
            ThreadTask.empty).parts_and_ranges.headD (0, [])).1 ∧
        sumMarks task.ranges = needFormula
          ((pool.threads_tasks.getD (pool.remaining_thread_tasks.headD 0)
            ThreadTask.empty).sum_marks_in_parts.headD 0) mm ∧
        task.ranges.reverse.Pairwise (fun a b => a.hi ≤ b.lo) ∧
        (∀ r ∈ task.ranges, r.lo < r.hi)) := by
  refine ⟨?_, ?_, ?_, ?_⟩
  · intro h
    simp [getTask, h]
  · intro hown hdns
    simp only [getTask]
    by_cases hre : pool.remaining_thread_tasks.isEmpty = true
    · rw [if_pos hre]
    · have hoe : (pool.threads_tasks.getD thread
          ThreadTask.empty).sum_marks_in_parts.isEmpty = true := by
        rw [hown]
        rfl
      rw [if_neg hre, hoe, hdns]
      simp
  · intro hown
    have hthread : thread < pool.threads_tasks.length := by
      by_contra hc
      push_neg at hc
      apply hown
      rw [List.getD_eq_default _ _ hc]
      rfl
    have hmem : thread ∈ pool.remaining_thread_tasks := (hWF.2.2.2 thread hthread).mpr hown
    obtain ⟨task, pool', hserve, hpi, hmk, hpw, hlo, _, _, _, _, _⟩ :=
      serveFromThread_spec pool mm thread hWF hthread hmm hown
    refine ⟨task, pool', ?_, hpi, hmk, hpw, hlo⟩
    have hre : ¬ pool.remaining_thread_tasks.isEmpty = true := fun hc =>
      List.ne_nil_of_mem hmem (List.isEmpty_iff.mp hc)
    have hoe : (pool.threads_tasks.getD thread
        ThreadTask.empty).sum_marks_in_parts.isEmpty = false := by
      rw [Bool.eq_false_iff]
      exact fun hc => hown (List.isEmpty_iff.mp hc)
    simp only [getTask]
    rw [if_neg hre, hoe]
    simpa using hserve
  · intro hown hdns hrem
    have hmem : pool.remaining_thread_tasks.headD 0 ∈ pool.remaining_thread_tasks := by
      cases hl : pool.remaining_thread_tasks with
      | nil => exact absurd hl hrem
      | cons a l => simp [hl]
    have htl : pool.remaining_thread_tasks.headD 0 < pool.threads_tasks.length :=
      hWF.2.2.1 _ hmem
    have htne : (pool.threads_tasks.getD (pool.remaining_thread_tasks.headD 0)
        ThreadTask.empty).sum_marks_in_parts ≠ [] :=
      (hWF.2.2.2 _ htl).mp hmem
    obtain ⟨task, pool', hserve, hpi, hmk, hpw, hlo, _, _, _, _, _⟩ :=
      serveFromThread_spec pool mm (pool.remaining_thread_tasks.headD 0) hWF htl hmm htne
    refine ⟨task, pool', ?_, htne, hpi, hmk, hpw, hlo⟩
    have hre : ¬ pool.remaining_thread_tasks.isEmpty = true := fun hc =>
      hrem (List.isEmpty_iff.mp hc)
    have hoe : (pool.threads_tasks.getD thread
        ThreadTask.empty).sum_marks_in_parts.isEmpty = true := by
      rw [hown]
      rfl
    simp only [getTask]
    rw [if_neg hre, hoe, hdns]
    simpa using hserve

/-- Witness for C8: a two-thread pool where thread 0 holds one part with marks
0..4; `getTask 2 0` must serve from thread 0's own queue and take
`needFormula 4 2 = 2` marks. -/
theorem C8_getTask_dispatch_witness :
    ∃ task pool',
      getTask ⟨[⟨[(0, [MarkRange.mk 0 4])], [4]⟩, ⟨[], []⟩], [0], false⟩ 2 0 =
        some (task, pool') ∧
      task.part_idx = 0 ∧ sumMarks task.ranges = 2 := by
  have h := C8_getTask_dispatch ⟨[⟨[(0, [MarkRange.mk 0 4])], [4]⟩, ⟨[], []⟩], [0], false⟩
    2 0 (by decide) (by decide)
  obtain ⟨task, pool', heq, hpi, hmk, _⟩ := h.2.2.1 (by decide)
  refine ⟨task, pool', heq, ?_, ?_⟩
  · rw [hpi]
    decide
  · rw [hmk]
    decide

lemma fillNeed_ge (mmcr marks need : Nat) : need ≤ fillNeed mmcr marks need := by
  simp only [fillNeed]
  by_cases h1 : marks ≥ mmcr ∧ need < mmcr
  · rw [if_pos h1]
    by_cases h2 : marks > mmcr ∧ marks - mmcr < mmcr
    · rw [if_pos h2]
      omega
    · rw [if_neg h2]
      omega
  · rw [if_neg h1]
    by_cases h2 : marks > need ∧ marks - need < mmcr
    · rw [if_pos h2]
      omega
    · rw [if_neg h2]

lemma fillRangesLoop_zero (rs acc : List MarkRange) :
    fillRangesLoop 0 rs acc = some (acc, rs) := by
  rw [fillRangesLoop.eq_def, dif_pos rfl]

lemma fillRangesLoop_cons (need : Nat) (hneed : need ≠ 0) (r : MarkRange)
    (rs0 acc : List MarkRange) (hz : min r.marks need ≠ 0) :
    fillRangesLoop need (r :: rs0) acc =
      fillRangesLoop (need - min r.marks need)
        (if r.lo + min r.marks need = r.hi then rs0
         else ⟨r.lo + min r.marks need, r.hi⟩ :: rs0)
        (⟨r.lo, r.lo + min r.marks need⟩ :: acc) := by
  conv_lhs => rw [fillRangesLoop.eq_def]
  rw [dif_neg hneed]
  dsimp only
  rw [dif_neg hz]

/-- When the demanded marks fit in the ranges, `fillPerThreadInfo`'s range-biting
loop cannot hit its LOGICAL_ERROR case and computes exactly what `getTask`'s loop
does. -/
lemma fillRangesLoop_eq_getTaskRangesLoop :
    ∀ (N need : Nat) (rs acc : List MarkRange), need + rs.length ≤ N →
      (∀ r ∈ rs, r.lo < r.hi) → need ≤ sumMarks rs →
      fillRangesLoop need rs acc =
        some ((getTaskRangesLoop need rs acc).1, (getTaskRangesLoop need rs acc).2.1) := by
  intro N
  induction N with
  | zero =>
    intro need rs acc hN hr hle
    have hneed : need = 0 := by omega
    subst hneed
    rw [fillRangesLoop_zero, getTaskRangesLoop_zero]
  | succ N ih =>
    intro need rs acc hN hr hle
    by_cases hneed : need = 0
    · subst hneed
      rw [fillRangesLoop_zero, getTaskRangesLoop_zero]
    · cases rs with
      | nil =>
        exfalso
        simp [sumMarks] at hle
        omega
      | cons r rs0 =>
        have hrhead : r.lo < r.hi := hr r (by simp)
        have htake : min r.marks need ≠ 0 := by
          simp only [MarkRange.marks]
          omega
        rw [fillRangesLoop_cons need hneed r rs0 acc htake,
          getTaskRangesLoop_cons need hneed r rs0 acc htake]
        set take := min r.marks need with htake_def
        have htake_le_marks : take ≤ r.marks := Nat.min_le_left _ _
        have htake_le_need : take ≤ need := Nat.min_le_right _ _
        have htake_pos : 0 < take := Nat.pos_of_ne_zero htake
        have hsum0 : sumMarks (r :: rs0) = r.marks + sumMarks rs0 := sumMarks_cons r rs0
        rw [hsum0] at hle
        apply ih
        · by_cases hfull : r.lo + take = r.hi
          · rw [if_pos hfull]
            simp only [List.length_cons] at hN
            omega
          · rw [if_neg hfull]
            simp only [List.length_cons] at hN ⊢
            omega
        · intro x hx
          by_cases hfull : r.lo + take = r.hi
          · rw [if_pos hfull] at hx
            exact hr x (by simp [hx])
          · rw [if_neg hfull] at hx
            rcases List.mem_cons.mp hx with h1 | h1
            · subst h1
              show r.lo + take < r.hi
              simp only [MarkRange.marks] at htake_le_marks
              omega
            · exact hr x (by simp [h1])
        · by_cases hfull : r.lo + take = r.hi
          · rw [if_pos hfull]
            simp only [MarkRange.marks] at htake_le_marks hle
            omega
          · rw [if_neg hfull, sumMarks_cons]
            simp only [MarkRange.marks] at htake_le_marks hle ⊢
            omega

lemma fillThreadLoop_nil (mmcr need : Nat) (tt : ThreadTask) :
    fillThreadLoop mmcr need [] tt = some (tt, []) := by
  rw [fillThreadLoop.eq_def]

lemma fillThreadLoop_zero (mmcr : Nat) (ranges : List MarkRange) (marks : Nat)
    (rest : List (List MarkRange × Nat)) (tt : ThreadTask) :
    fillThreadLoop mmcr 0 ((ranges, marks) :: rest) tt =
      some (tt, (ranges, marks) :: rest) := by
  rw [fillThreadLoop.eq_def]
  dsimp only
  rw [dif_pos rfl]

lemma fillThreadLoop_cons (mmcr need : Nat) (hneed : need ≠ 0) (ranges : List MarkRange)
    (marks : Nat) (rest : List (List MarkRange × Nat)) (tt : ThreadTask) :
    fillThreadLoop mmcr need ((ranges, marks) :: rest) tt =
      (if marks ≤ fillNeed mmcr marks need then
        fillThreadLoop mmcr (fillNeed mmcr marks need - marks) rest
          ⟨(rest.length, ranges) :: tt.parts_and_ranges, marks :: tt.sum_marks_in_parts⟩
      else
        match fillRangesLoop (fillNeed mmcr marks need) ranges [] with
        | none => none
        | some (acc, ranges') =>
          some (⟨(rest.length, acc.reverse) :: tt.parts_and_ranges,
              fillNeed mmcr marks need :: tt.sum_marks_in_parts⟩,
            (ranges', marks - fillNeed mmcr marks need) :: rest)) := by
  conv_lhs => rw [fillThreadLoop.eq_def]
  dsimp only
  rw [dif_neg hneed]
  rfl

lemma threadMarks_empty : threadMarks ThreadTask.empty = 0 := rfl

lemma partsTotal_cons (p : List MarkRange × Nat) (rest : List (List MarkRange × Nat)) :
    partsTotal (p :: rest) = p.2 + partsTotal rest := by
  simp [partsTotal]

/-- One thread's filling pass (`fillPerThreadInfo`'s inner while): it never throws,
keeps the queue and the remaining parts wellformed, conserves the marks multiset,
and either drains at least the demanded marks from the parts or exhausts them. -/
lemma fillThreadLoop_spec (mmcr : Nat) :
    ∀ (parts : List (List MarkRange × Nat)) (need : Nat) (tt : ThreadTask),
      partsWF parts → threadWF tt →
      ∃ tt' parts', fillThreadLoop mmcr need parts tt = some (tt', parts') ∧
        threadWF tt' ∧ partsWF parts' ∧
        threadMarks tt' + partsMarks parts' = threadMarks tt + partsMarks parts ∧
        (partsTotal parts' + need ≤ partsTotal parts ∨ parts' = []) := by
  intro parts
  induction parts with
  | nil =>
    intro need tt hparts htt
    refine ⟨tt, [], fillThreadLoop_nil mmcr need tt, htt, ?_, rfl, Or.inr rfl⟩
    intro p hp
    simp at hp
  | cons p rest ih =>
    obtain ⟨ranges, marks⟩ := p
    intro need tt hparts htt
    have hpart := hparts (ranges, marks) (by simp)
    have hrne : ∀ r ∈ ranges, r.lo < r.hi := hpart.1
    have hrpair : ranges.Pairwise (fun a b => a.hi ≤ b.lo) := hpart.2.1
    have hmeq : marks = sumMarks ranges := hpart.2.2.1
    have hmpos : 0 < marks := hpart.2.2.2
    have hrest : partsWF rest := fun q hq => hparts q (by simp [hq])
    by_cases hneed : need = 0
    · subst hneed
      exact ⟨tt, (ranges, marks) :: rest, fillThreadLoop_zero mmcr ranges marks rest tt,
        htt, hparts, rfl, Or.inl (by omega)⟩
    · rw [fillThreadLoop_cons mmcr need hneed ranges marks rest tt]
      have hneed_le : need ≤ fillNeed mmcr marks need := fillNeed_ge mmcr marks need
      by_cases hwhole : marks ≤ fillNeed mmcr marks need
      · rw [if_pos hwhole]
        have htt1 : threadWF ⟨(rest.length, ranges) :: tt.parts_and_ranges,
            marks :: tt.sum_marks_in_parts⟩ := by
          refine ⟨?_, ?_⟩
          · simp [htt.1]
          · intro q hq
            simp only [List.zip_cons_cons, List.mem_cons] at hq
            rcases hq with hq | hq
            · rw [hq]
              exact ⟨hmeq, ⟨hrne, hrpair⟩, hmpos⟩
            · exact htt.2 q hq
        obtain ⟨tt2, parts2, heq2, hwf2, hpw2, hcons2, hdrain2⟩ :=
          ih (fillNeed mmcr marks need - marks) _ hrest htt1
        refine ⟨tt2, parts2, heq2, hwf2, hpw2, ?_, ?_⟩
        · rw [hcons2]
          have h1 : threadMarks ⟨(rest.length, ranges) :: tt.parts_and_ranges,
              marks :: tt.sum_marks_in_parts⟩ =
              entryMarks (rest.length, ranges) + threadMarks tt := by
            simp [threadMarks]
          rw [h1, partsMarks]
          have h2 : entryMarks (rest.length, ranges) = rangesMarks rest.length ranges :=
            rfl
          rw [h2]
          abel
        · rcases hdrain2 with h | h
          · left
            rw [partsTotal_cons]
            omega
          · right
            exact h
      · rw [if_neg hwhole]
        push_neg at hwhole
        have hfle : fillNeed mmcr marks need ≤ sumMarks ranges := by
          rw [← hmeq]
          omega
        have hfill := fillRangesLoop_eq_getTaskRangesLoop
          (fillNeed mmcr marks need + ranges.length) (fillNeed mmcr marks need) ranges []
          le_rfl hrne hfle
        obtain ⟨hl0, hlmarks, hlsum, hlsumrem, hlremne, hlrempair, hlpair, hlne, hlsep⟩ :=
          getTaskRangesLoop_spec rest.length (fillNeed mmcr marks need + ranges.length)
            (fillNeed mmcr marks need) ranges [] le_rfl hrne hrpair hfle
            (by simp) (by simp) (by simp)
        have hnil : rangesMarks rest.length ([] : List MarkRange) = 0 := by
          simp [rangesMarks]
        rw [hnil, zero_add] at hlmarks
        have hsnil : sumMarks ([] : List MarkRange) = 0 := by simp [sumMarks]
        rw [hsnil, zero_add] at hlsum
        rw [hfill]
        refine ⟨_, _, rfl, ?_, ?_, ?_, ?_⟩
        · -- threadWF of the grown queue
          refine ⟨?_, ?_⟩
          · simp [htt.1]
          · intro q hq
            simp only [List.zip_cons_cons, List.mem_cons] at hq
            rcases hq with hq | hq
            · rw [hq]
              refine ⟨?_, ⟨?_, ?_⟩, ?_⟩
              · dsimp only
                rw [sumMarks_reverse, hlsum]
              · intro r hr
                exact hlne r (by simpa using hr)
              · dsimp only
                rw [List.pairwise_reverse]
                exact hlpair
              · dsimp only
                omega
            · exact htt.2 q hq
        · -- partsWF of the remainder
          intro q hq
          rcases List.mem_cons.mp hq with h1 | h1
          · rw [h1]
            refine ⟨hlremne, hlrempair, ?_, ?_⟩
            · dsimp only
              rw [hlsumrem, hmeq]
            · dsimp only
              omega
          · exact hrest q h1
        · -- marks conservation
          have h1 : threadMarks ⟨(rest.length,
                (getTaskRangesLoop (fillNeed mmcr marks need) ranges []).1.reverse) ::
                tt.parts_and_ranges,
              fillNeed mmcr marks need :: tt.sum_marks_in_parts⟩ =
              rangesMarks rest.length
                  (getTaskRangesLoop (fillNeed mmcr marks need) ranges []).1 +
                threadMarks tt := by
            simp only [threadMarks, List.map_cons, List.sum_cons]
            rw [show entryMarks (rest.length,
                (getTaskRangesLoop (fillNeed mmcr marks need) ranges []).1.reverse) =
              rangesMarks rest.length
                (getTaskRangesLoop (fillNeed mmcr marks need) ranges []).1.reverse from rfl]
            rw [rangesMarks_reverse]
          rw [h1, partsMarks, partsMarks]
          have h2 : rangesMarks rest.length
              ((getTaskRangesLoop (fillNeed mmcr marks need) ranges []).2.1,
                marks - fillNeed mmcr marks need).1 =
              rangesMarks rest.length
                (getTaskRangesLoop (fillNeed mmcr marks need) ranges []).2.1 := rfl
          rw [h2]
          have h3 : rangesMarks rest.length ((ranges, marks) : List MarkRange × Nat).1 =
              rangesMarks rest.length ranges := rfl
          rw [h3, ← hlmarks]
          abel
        · -- drainage
          left
          rw [partsTotal_cons, partsTotal_cons]
          dsimp only
          omega

lemma threadWF_empty : threadWF ThreadTask.empty := by
  refine ⟨rfl, ?_⟩
  intro p hp
  simp [ThreadTask.empty] at hp

/-- In a wellformed thread queue, the `marks_remaining_in_part(thread) != 0` test
used when inserting into `remaining_thread_tasks` is equivalent to the queue being
nonempty (every queued entry has positive remaining marks). -/
lemma threadWF_any_iff (tt : ThreadTask) (h : threadWF tt) :
    tt.sum_marks_in_parts.any (fun m => m ≠ 0) = true ↔ tt.sum_marks_in_parts ≠ [] := by
  constructor
  · intro ha hc
    rw [hc] at ha
    simp at ha
  · intro hne
    obtain ⟨hlen, hentry⟩ := h
    cases hsm : tt.sum_marks_in_parts with
    | nil => exact absurd hsm hne
    | cons m rest =>
      cases hpr : tt.parts_and_ranges with
      | nil =>
        rw [hpr, hsm] at hlen
        simp at hlen
      | cons e er =>
        have hm := hentry (e, m) (by rw [hpr, hsm]; simp)
        have hmpos : 0 < m := hm.2.2
        simp only [List.any_cons, Bool.or_eq_true]
        left
        exact decide_eq_true (by omega)

lemma getD_replicate_empty (n k : Nat) :
    (List.replicate n ThreadTask.empty).getD k ThreadTask.empty = ThreadTask.empty := by
  induction n generalizing k with
  | zero => simp [List.getD]
  | succ n ihn =>
    cases k with
    | zero => simp [List.replicate]
    | succ k =>
      simp only [List.replicate]
      rw [List.getD_cons_succ]
      exact ihn k

lemma fillThreadsLoop_base (mmcr mmpt threads i : Nat) (h : threads ≤ i)
    (parts : List (List MarkRange × Nat)) :
    fillThreadsLoop mmcr mmpt threads i parts = some ([], []) := by
  rw [fillThreadsLoop.eq_def, dif_pos h]

lemma fillThreadsLoop_empty (mmcr mmpt threads i : Nat) (h : ¬ threads ≤ i) :
    fillThreadsLoop mmcr mmpt threads i [] =
      some (List.replicate (threads - i) ThreadTask.empty, []) := by
  rw [fillThreadsLoop.eq_def, dif_neg h]
  rfl

lemma fillThreadsLoop_step (mmcr mmpt threads i : Nat) (h : ¬ threads ≤ i)
    (parts : List (List MarkRange × Nat)) (hne : parts ≠ []) :
    fillThreadsLoop mmcr mmpt threads i parts =
      match fillThreadLoop mmcr mmpt parts ThreadTask.empty with
      | none => none
      | some (tt, parts') =>
        match fillThreadsLoop mmcr mmpt threads (i + 1) parts' with
        | none => none
        | some (rest, rem) =>
          some (tt :: rest,
            (if tt.sum_marks_in_parts.any (fun m => m ≠ 0) then [i] else []) ++ rem) := by
  rw [fillThreadsLoop.eq_def, dif_neg h, if_neg (by simp [hne])]

/-- The outer loop of `fillPerThreadInfo` starting at thread `i`: when the recorded
parts total fits into the remaining threads' demand, it never throws, produces one
wellformed queue per remaining thread, records exactly the threads with nonempty
queues, and distributes every mark of the parts across the queues. -/
lemma fillThreadsLoop_spec (mmcr mmpt threads : Nat) :
    ∀ (d i : Nat), threads - i ≤ d → ∀ (parts : List (List MarkRange × Nat)),
      partsWF parts → partsTotal parts ≤ (threads - i) * mmpt →
      ∃ tts rem, fillThreadsLoop mmcr mmpt threads i parts = some (tts, rem) ∧
        tts.length = threads - i ∧
        (∀ tt ∈ tts, threadWF tt) ∧
        rem.Nodup ∧
        (∀ j ∈ rem, i ≤ j ∧ j < threads) ∧
        (∀ j, i ≤ j → j < threads →
          (j ∈ rem ↔ (tts.getD (j - i) ThreadTask.empty).sum_marks_in_parts ≠ [])) ∧
        (tts.map threadMarks).sum = partsMarks parts := by
  intro d
  induction d with
  | zero =>
    intro i hd parts hWFp hle
    have hti : threads ≤ i := by omega
    have h0 : threads - i = 0 := by omega
    rw [h0] at hle
    simp only [Nat.zero_mul, Nat.le_zero] at hle
    have hpnil : parts = [] := by
      cases hp : parts with
      | nil => rfl
      | cons p ps =>
        exfalso
        have hpos := (hWFp p (by rw [hp]; simp)).2.2.2
        rw [hp, partsTotal_cons] at hle
        omega
    subst hpnil
    refine ⟨[], [], fillThreadsLoop_base mmcr mmpt threads i hti [], by simp [h0],
      ?_, List.nodup_nil, ?_, ?_, ?_⟩
    · intro tt htt
      simp at htt
    · intro j hj
      simp at hj
    · intro j hij hjt
      constructor
      · intro hj
        simp at hj
      · intro hj
        exact absurd rfl hj
    · simp [partsMarks]
  | succ d ihd =>
    intro i hd parts hWFp hle
    by_cases hti : threads ≤ i
    · exact ihd i (by omega) parts hWFp hle
    · by_cases hpe : parts = []
      · subst hpe
        refine ⟨List.replicate (threads - i) ThreadTask.empty, [],
          fillThreadsLoop_empty mmcr mmpt threads i hti, by simp, ?_,
          List.nodup_nil, ?_, ?_, ?_⟩
        · intro tt htt
          rw [List.eq_of_mem_replicate htt]
          exact threadWF_empty
        · intro j hj
          simp at hj
        · intro j hij hjt
          constructor
          · intro hj
            simp at hj
          · intro hj
            exfalso
            apply hj
            rw [getD_replicate_empty]
            rfl
        · simp [threadMarks, ThreadTask.empty, partsMarks]
      · obtain ⟨tt1, parts1, heq1, hwf1, hpw1, hcons1, hdrain1⟩ :=
          fillThreadLoop_spec mmcr parts mmpt ThreadTask.empty hWFp threadWF_empty
        have hsub : (threads - i) * mmpt = (threads - (i + 1)) * mmpt + mmpt := by
          have h1 : threads - i = (threads - (i + 1)) + 1 := by omega
          rw [h1, Nat.succ_mul]
        have hle1 : partsTotal parts1 ≤ (threads - (i + 1)) * mmpt := by
          rcases hdrain1 with h | h
          · omega
          · rw [h]
            simp [partsTotal]
        obtain ⟨tts2, rem2, heq2, hlen2, hwf2, hnd2, hbnd2, hiff2, hconsv2⟩ :=
          ihd (i + 1) (by omega) parts1 hpw1 hle1
        rw [fillThreadsLoop_step mmcr mmpt threads i hti parts hpe, heq1]
        dsimp only
        rw [heq2]
        dsimp only
        refine ⟨_, _, rfl, ?_, ?_, ?_, ?_, ?_, ?_⟩
        · simp only [List.length_cons, hlen2]
          omega
        · intro tt htt
          rcases List.mem_cons.mp htt with h | h
          · rw [h]
            exact hwf1
          · exact hwf2 tt h
        · by_cases hins : tt1.sum_marks_in_parts.any (fun m => m ≠ 0) = true
          · rw [if_pos hins, List.singleton_append]
            exact List.nodup_cons.mpr
              ⟨fun hc => absurd (hbnd2 i hc).1 (by omega), hnd2⟩
          · rw [if_neg hins, List.nil_append]
            exact hnd2
        · intro j hj
          by_cases hins : tt1.sum_marks_in_parts.any (fun m => m ≠ 0) = true
          · rw [if_pos hins, List.singleton_append] at hj
            rcases List.mem_cons.mp hj with h | h
            · subst h
              exact ⟨le_rfl, by omega⟩
            · have := hbnd2 j h
              exact ⟨by omega, this.2⟩
          · rw [if_neg hins, List.nil_append] at hj
            have := hbnd2 j hj
            exact ⟨by omega, this.2⟩
        · intro j hij hjt
          by_cases hji : j = i
          · subst hji
            rw [Nat.sub_self, List.getD_cons_zero]
            have hiZ : j ∉ rem2 := fun hc => by
              have := (hbnd2 j hc).1
              omega
            by_cases hins : tt1.sum_marks_in_parts.any (fun m => m ≠ 0) = true
            · rw [if_pos hins, List.singleton_append]
              constructor
              · intro _
                exact (threadWF_any_iff tt1 hwf1).mp hins
              · intro _
                exact List.mem_cons_self j rem2
            · rw [if_neg hins, List.nil_append]
              constructor
              · intro hc
                exact absurd hc hiZ
              · intro hne2
                exact absurd ((threadWF_any_iff tt1 hwf1).mpr hne2) hins
          · have hij1 : i + 1 ≤ j := by omega
            have hsubst : j - i = (j - (i + 1)) + 1 := by omega
            rw [hsubst, List.getD_cons_succ]
            have hmain := hiff2 j hij1 hjt
            by_cases hins : tt1.sum_marks_in_parts.any (fun m => m ≠ 0) = true
            · rw [if_pos hins, List.singleton_append]
              constructor
              · intro hj
                rcases List.mem_cons.mp hj with h | h
                · exact absurd h hji
                · exact hmain.mp h
              · intro h
                exact List.mem_cons_of_mem i (hmain.mpr h)
            · rw [if_neg hins, List.nil_append]
              exact hmain
        · simp only [List.map_cons, List.sum_cons]
          rw [hconsv2, hcons1, threadMarks_empty, zero_add]

/-- `fillPerThreadInfo` with the recorded parts total as `sum_marks`: the
distribution succeeds, establishes the pool invariant with one queue per thread,
and distributes every mark of the input parts across the queues. -/
lemma fillPerThreadInfo_spec (threads sum_marks mmcr : Nat)
    (parts : List (List MarkRange × Nat)) (dns : Bool) (pool : Pool)
    (hthreads : 0 < threads) (hWFp : partsWF parts)
    (hsum : sum_marks = partsTotal parts)
    (hfill : fillPerThreadInfo threads sum_marks mmcr parts dns = some pool) :
    poolWF pool ∧ pool.threads_tasks.length = threads ∧
      pool.do_not_steal_tasks = dns ∧ poolMarks pool = partsMarks parts := by
  have hcap : partsTotal parts ≤ (threads - 0) * ((sum_marks - 1) / threads + 1) := by
    have h1 := Nat.div_add_mod (sum_marks - 1) threads
    have h2 := Nat.mod_lt (sum_marks - 1) hthreads
    rw [Nat.sub_zero, Nat.mul_succ]
    omega
  obtain ⟨tts, rem, heq, hlen, hwf, hnd, hbnd, hiff, hconsv⟩ :=
    fillThreadsLoop_spec mmcr ((sum_marks - 1) / threads + 1) threads threads 0
      (by omega) parts hWFp hcap
  simp only [fillPerThreadInfo] at hfill
  rw [heq] at hfill
  dsimp only at hfill
  have hpool : (⟨tts, rem, dns⟩ : Pool) = pool := Option.some.inj hfill
  subst hpool
  refine ⟨⟨hwf, hnd, ?_, ?_⟩, by simpa using hlen, rfl, hconsv⟩
  · intro i hi
    have := (hbnd i hi).2
    simp only at hlen ⊢
    omega
  · intro i hi
    simp only at hi
    have h1 := hiff i (Nat.zero_le i) (by omega)
    rw [Nat.sub_zero] at h1
    exact h1

/-- A successful `getTask` call preserves the pool invariant and the queue count
and removes from the pool exactly the marks it hands out. -/
lemma getTask_some_spec (pool : Pool) (mm t : Nat) (task : ReadTask) (pool' : Pool)
    (hWF : poolWF pool) (hmm : 0 < mm)
    (heq : getTask pool mm t = some (task, pool')) :
    poolWF pool' ∧ pool'.threads_tasks.length = pool.threads_tasks.length ∧
      taskMarks task + poolMarks pool' = poolMarks pool := by
  by_cases hre : pool.remaining_thread_tasks.isEmpty = true
  · rw [getTask, if_pos hre] at heq
    exact absurd heq (by simp)
  · by_cases hown : (pool.threads_tasks.getD t ThreadTask.empty).sum_marks_in_parts = []
    · have hoe : (pool.threads_tasks.getD t
          ThreadTask.empty).sum_marks_in_parts.isEmpty = true := by
        rw [hown]
        rfl
      by_cases hdns : pool.do_not_steal_tasks = true
      · simp only [getTask] at heq
        rw [if_neg hre, hoe, hdns] at heq
        simp at heq
      · have hdns' : pool.do_not_steal_tasks = false := by
          revert hdns
          cases pool.do_not_steal_tasks <;> simp
        have hremne : pool.remaining_thread_tasks ≠ [] := fun hc => hre (by simp [hc])
        have hmem : pool.remaining_thread_tasks.headD 0 ∈ pool.remaining_thread_tasks := by
          cases hl : pool.remaining_thread_tasks with
          | nil => exact absurd hl hremne
          | cons a l => simp [hl]
        have htl : pool.remaining_thread_tasks.headD 0 < pool.threads_tasks.length :=
          hWF.2.2.1 _ hmem
        have htne : (pool.threads_tasks.getD (pool.remaining_thread_tasks.headD 0)
            ThreadTask.empty).sum_marks_in_parts ≠ [] :=
          (hWF.2.2.2 _ htl).mp hmem
        obtain ⟨task0, pool0, hs0, _, _, _, _, _, hlen0, _, hWF0, hcons0⟩ :=
          serveFromThread_spec pool mm (pool.remaining_thread_tasks.headD 0) hWF htl
            hmm htne
        simp only [getTask] at heq
        rw [if_neg hre, hoe, hdns'] at heq
        rw [if_neg (show ¬(((!(!true)) && false) = true) from by decide),
          if_neg (show ¬(((!true) : Bool) = true) from by decide)] at heq
        rw [hs0] at heq
        have h12 := Option.some.inj heq
        have htask : task0 = task := congrArg Prod.fst h12
        have hpool : pool0 = pool' := congrArg Prod.snd h12
        subst htask hpool
        exact ⟨hWF0, hlen0, hcons0⟩
    · have hoe : (pool.threads_tasks.getD t
          ThreadTask.empty).sum_marks_in_parts.isEmpty = false := by
        rw [Bool.eq_false_iff]
        exact fun hc => hown (List.isEmpty_iff.mp hc)
      have hthread : t < pool.threads_tasks.length := by
        by_contra hc
        push_neg at hc
        apply hown
        rw [List.getD_eq_default _ _ hc]
        rfl
      obtain ⟨task0, pool0, hs0, _, _, _, _, _, hlen0, _, hWF0, hcons0⟩ :=
        serveFromThread_spec pool mm t hWF hthread hmm hown
      simp only [getTask] at heq
      rw [if_neg hre, hoe] at heq
      rw [if_neg (show ¬(((!(!false)) && pool.do_not_steal_tasks) = true) from by simp),
        if_pos (show ((!false) : Bool) = true from by decide)] at heq
      rw [hs0] at heq
      have h12 := Option.some.inj heq
      have htask : task0 = task := congrArg Prod.fst h12
      have hpool : pool0 = pool' := congrArg Prod.snd h12
      subst htask hpool
      exact ⟨hWF0, hlen0, hcons0⟩

/-- Any sequence of `getTask` requests preserves the pool invariant and the marks
multiset: marks handed out plus marks still pooled equal the initial pool marks. -/
lemma runPool_spec (reqs : List (Nat × Nat)) :
    ∀ (pool : Pool), poolWF pool → (∀ q ∈ reqs, 0 < q.1) →
      poolWF (runPool pool reqs).2 ∧
      (runPool pool reqs).2.threads_tasks.length = pool.threads_tasks.length ∧
      tasksMarks (runPool pool reqs).1 + poolMarks (runPool pool reqs).2 =
        poolMarks pool := by
  induction reqs with
  | nil =>
    intro pool hWF hq
    exact ⟨hWF, rfl, by simp [runPool, tasksMarks]⟩
  | cons q reqs ih =>
    intro pool hWF hq
    obtain ⟨mm, t⟩ := q
    rw [runPool]
    cases hg : getTask pool mm t with
    | none =>
      dsimp only
      exact ih pool hWF (fun r hr => hq r (by simp [hr]))
    | some p =>
      obtain ⟨task, pool1⟩ := p
      dsimp only
      obtain ⟨hWF1, hlen1, hcons1⟩ :=
        getTask_some_spec pool mm t task pool1 hWF (hq (mm, t) (by simp)) hg
      obtain ⟨hWF2, hlen2, hcons2⟩ := ih pool1 hWF1 (fun r hr => hq r (by simp [hr]))
      refine ⟨hWF2, by rw [hlen2, hlen1], ?_⟩
      simp only [tasksMarks, List.map_cons, List.sum_cons] at hcons2 ⊢
      rw [← hcons1, ← hcons2]
      abel

/-- When `getTask` answers none for every thread of a wellformed pool, the pool
holds no marks at all. -/
lemma drained_poolMarks (pool : Pool) (hWF : poolWF pool)
    (hnone : ∀ t < pool.threads_tasks.length, getTask pool 1 t = none) :
    poolMarks pool = 0 := by
  obtain ⟨hWF1, hWF2, hWF3, hWF4⟩ := hWF
  have hrem : pool.remaining_thread_tasks = [] := by
    by_contra hc
    obtain ⟨i, hi⟩ : ∃ i, i ∈ pool.remaining_thread_tasks := by
      cases hl : pool.remaining_thread_tasks with
      | nil => exact absurd hl hc
      | cons a l => exact ⟨a, by simp [hl]⟩
    have hil : i < pool.threads_tasks.length := hWF3 i hi
    have hine : (pool.threads_tasks.getD i ThreadTask.empty).sum_marks_in_parts ≠ [] :=
      (hWF4 i hil).mp hi
    obtain ⟨task, pool', hs, _, _, _, _, _, _, _, _, _⟩ :=
      serveFromThread_spec pool 1 i ⟨hWF1, hWF2, hWF3, hWF4⟩ hil (by omega) hine
    have hre : ¬ pool.remaining_thread_tasks.isEmpty = true := fun h2 =>
      hc (List.isEmpty_iff.mp h2)
    have hoe : (pool.threads_tasks.getD i
        ThreadTask.empty).sum_marks_in_parts.isEmpty = false := by
      rw [Bool.eq_false_iff]
      exact fun h2 => hine (List.isEmpty_iff.mp h2)
    have hgt := hnone i hil
    simp only [getTask] at hgt
    rw [if_neg hre, hoe] at hgt
    rw [if_neg (show ¬(((!(!false)) && pool.do_not_steal_tasks) = true) from by simp),
      if_pos (show ((!false) : Bool) = true from by decide)] at hgt
    rw [hs] at hgt
    simp at hgt
  have hall : ∀ tt ∈ pool.threads_tasks, threadMarks tt = 0 := by
    intro tt htt
    obtain ⟨k, hk, hkeq⟩ := List.getElem_of_mem htt
    have hknotrem : k ∉ pool.remaining_thread_tasks := by
      rw [hrem]
      simp
    have hsum : (pool.threads_tasks.getD k ThreadTask.empty).sum_marks_in_parts = [] := by
      by_contra hc2
      exact hknotrem ((hWF4 k hk).mpr hc2)
    have hgd : pool.threads_tasks.getD k ThreadTask.empty = tt := by
      rw [List.getD_eq_getElem _ _ hk, hkeq]
    rw [hgd] at hsum
    have hwtt := hWF1 tt htt
    have hpr : tt.parts_and_ranges = [] := by
      have h3 := hwtt.1
      rw [hsum] at h3
      exact List.eq_nil_of_length_eq_zero (by simpa using h3)
    rw [threadMarks, hpr]
    simp
  rw [poolMarks]
  refine List.sum_eq_zero ?_
  intro x hx
  obtain ⟨tt, htt, rfl⟩ := List.mem_map.mp hx
  exact hall tt htt

lemma mem_rangesMarks (pidx : Nat) (rs : List MarkRange) (x : Nat × Nat) :
    x ∈ rangesMarks pidx rs ↔ ∃ r ∈ rs, x ∈ rangeMarks pidx r := by
  induction rs with
  | nil => simp [rangesMarks]
  | cons r rs ihr =>
    rw [rangesMarks_cons]
    simp only [Multiset.mem_add, ihr, List.mem_cons]
    constructor
    · rintro (h | ⟨r', hr', hx⟩)
      · exact ⟨r, Or.inl rfl, h⟩
      · exact ⟨r', Or.inr hr', hx⟩
    · rintro ⟨r', h | h, hx⟩
      · subst h
        exact Or.inl hx
      · exact Or.inr ⟨r', h, hx⟩

/-- Disjoint left-to-right ranges of one part cover each of its marks at most
once. -/
lemma rangesMarks_nodup (pidx : Nat) (rs : List MarkRange)
    (hpair : rs.Pairwise (fun a b => a.hi ≤ b.lo)) :
    (rangesMarks pidx rs).Nodup := by
  induction rs with
  | nil => simp [rangesMarks]
  | cons r rs ihr =>
    rw [rangesMarks_cons]
    have hp := List.pairwise_cons.mp hpair
    rw [Multiset.nodup_add]
    refine ⟨rangeMarks_nodup pidx r, ihr hp.2, ?_⟩
    rw [Multiset.disjoint_left]
    intro x hx hx2
    rw [mem_rangeMarks] at hx
    rw [mem_rangesMarks] at hx2
    obtain ⟨r', hr', hxr'⟩ := hx2
    rw [mem_rangeMarks] at hxr'
    have := hp.1 r' hr'
    omega

lemma mem_partsMarks_fst (parts : List (List MarkRange × Nat)) (x : Nat × Nat) :
    x ∈ partsMarks parts → x.1 < parts.length := by
  induction parts with
  | nil =>
    intro h
    simp [partsMarks] at h
  | cons p rest ihp =>
    intro h
    rw [partsMarks, Multiset.mem_add] at h
    rcases h with h | h
    · rw [mem_rangesMarks] at h
      obtain ⟨r, hr, hxr⟩ := h
      rw [mem_rangeMarks] at hxr
      simp [hxr.1]
    · have := ihp h
      simp only [List.length_cons]
      omega

/-- The (part index, mark) pairs of a wellformed parts list are pairwise
distinct. -/
lemma partsMarks_nodup (parts : List (List MarkRange × Nat))
    (hWFp : partsWF parts) : (partsMarks parts).Nodup := by
  induction parts with
  | nil => simp [partsMarks]
  | cons p rest ihp =>
    rw [partsMarks, Multiset.nodup_add]
    refine ⟨rangesMarks_nodup _ _ (hWFp p (by simp)).2.1,
      ihp (fun q hq => hWFp q (by simp [hq])), ?_⟩
    rw [Multiset.disjoint_left]
    intro x hx hx2
    rw [mem_rangesMarks] at hx
    obtain ⟨r, hr, hxr⟩ := hx
    rw [mem_rangeMarks] at hxr
    have := mem_partsMarks_fst rest x hx2
    omega

/-- C10: read-pool mark conservation.  Distribute a wellformed parts list over
`threads` threads with `fillPerThreadInfo` and run any sequence of `getTask`
requests: (1) the marks handed out in tasks plus the marks still pooled are
exactly the multiset of (part, mark) pairs of the input ranges — no mark is lost
or duplicated along the way, with or without work stealing; (2) once every
thread's `getTask` returns none, the returned tasks carry exactly the input
marks; (3) that multiset has no duplicates, so each input mark is assigned to
exactly one task and the tasks' ranges are pairwise disjoint. -/
theorem C10_mark_conservation (threads sum_marks mmcr : Nat)
    (parts : List (List MarkRange × Nat)) (dns : Bool) (pool : Pool)
    (reqs : List (Nat × Nat))
    (hthreads : 0 < threads) (hWFp : partsWF parts)
    (hsum : sum_marks = partsTotal parts)
    (hfill : fillPerThreadInfo threads sum_marks mmcr parts dns = some pool)
    (hreq : ∀ q ∈ reqs, 0 < q.1) :
    tasksMarks (runPool pool reqs).1 + poolMarks (runPool pool reqs).2 =
        partsMarks parts ∧
      ((∀ t < threads, getTask (runPool pool reqs).2 1 t = none) →
        tasksMarks (runPool pool reqs).1 = partsMarks parts) ∧
      (partsMarks parts).Nodup := by
  obtain ⟨hWFpool, hlen, hdns, hmarks⟩ :=
    fillPerThreadInfo_spec threads sum_marks mmcr parts dns pool hthreads hWFp hsum hfill
  obtain ⟨hWF2, hlen2, hcons2⟩ := runPool_spec reqs pool hWFpool hreq
  refine ⟨by rw [hcons2, hmarks], ?_, partsMarks_nodup parts hWFp⟩
  intro hdrain
  have h0 : poolMarks (runPool pool reqs).2 = 0 := by
    apply drained_poolMarks _ hWF2
    intro t ht
    apply hdrain
    rw [hlen2, hlen] at ht
    exact ht
  have h1 := hcons2
  rw [h0, add_zero, hmarks] at h1
  exact h1

/-- Witness for C10: two parts (3 and 2 marks) distributed over two threads with
`min_marks_for_concurrent_read = 1`; two `getTask` calls drain the pool and the
returned tasks carry exactly the input marks, each exactly once. -/
theorem C10_mark_conservation_witness :
    tasksMarks (runPool ⟨[⟨[(1, [MarkRange.mk 0 3])], [3]⟩,
        ⟨[(0, [MarkRange.mk 0 2])], [2]⟩], [0, 1], false⟩ [(3, 0), (3, 1)]).1 =
      partsMarks [([MarkRange.mk 0 3], 3), ([MarkRange.mk 0 2], 2)] := by
  have e1 : fillThreadLoop 1 3 [([MarkRange.mk 0 3], 3), ([MarkRange.mk 0 2], 2)]
      ThreadTask.empty =
      some (⟨[(1, [MarkRange.mk 0 3])], [3]⟩, [([MarkRange.mk 0 2], 2)]) := by
    rw [fillThreadLoop_cons 1 3 (by decide) [MarkRange.mk 0 3] 3
      [([MarkRange.mk 0 2], 2)] ThreadTask.empty]
    rw [if_pos (by decide)]
    rw [show fillNeed 1 3 3 - 3 = 0 from by decide, fillThreadLoop_zero]
    rfl
  have e2 : fillThreadLoop 1 3 [([MarkRange.mk 0 2], 2)] ThreadTask.empty =
      some (⟨[(0, [MarkRange.mk 0 2])], [2]⟩, []) := by
    rw [fillThreadLoop_cons 1 3 (by decide) [MarkRange.mk 0 2] 2 [] ThreadTask.empty]
    rw [if_pos (by decide)]
    rw [show fillNeed 1 2 3 - 2 = 1 from by decide, fillThreadLoop_nil]
    rfl
  have e3 : fillThreadsLoop 1 3 2 2 [] = some ([], []) :=
    fillThreadsLoop_base 1 3 2 2 (le_refl 2) []
  have e4 : fillThreadsLoop 1 3 2 1 [([MarkRange.mk 0 2], 2)] =
      some ([⟨[(0, [MarkRange.mk 0 2])], [2]⟩], [1]) := by
    rw [fillThreadsLoop_step 1 3 2 1 (by omega) _ (by simp), e2]
    dsimp only
    rw [e3]
    rfl
  have e5 : fillThreadsLoop 1 3 2 0 [([MarkRange.mk 0 3], 3), ([MarkRange.mk 0 2], 2)] =
      some ([⟨[(1, [MarkRange.mk 0 3])], [3]⟩, ⟨[(0, [MarkRange.mk 0 2])], [2]⟩],
        [0, 1]) := by
    rw [fillThreadsLoop_step 1 3 2 0 (by omega) _ (by simp), e1]
    dsimp only
    rw [e4]
    rfl
  have hfillw : fillPerThreadInfo 2 5 1
      [([MarkRange.mk 0 3], 3), ([MarkRange.mk 0 2], 2)] false =
      some ⟨[⟨[(1, [MarkRange.mk 0 3])], [3]⟩, ⟨[(0, [MarkRange.mk 0 2])], [2]⟩],
        [0, 1], false⟩ := by
    simp only [fillPerThreadInfo]
    rw [show ((5 : Nat) - 1) / 2 + 1 = 3 from by decide, e5]
  have h := C10_mark_conservation 2 5 1
    [([MarkRange.mk 0 3], 3), ([MarkRange.mk 0 2], 2)] false
    ⟨[⟨[(1, [MarkRange.mk 0 3])], [3]⟩, ⟨[(0, [MarkRange.mk 0 2])], [2]⟩], [0, 1], false⟩
    [(3, 0), (3, 1)] (by decide) (by decide) (by decide) hfillw (by decide)
  exact h.2.1 (by decide)

end DB
